import Mathlib

/-!
Shallow embedding of the codemon-leaderboard API server (src/api/src/index.js):
the scoring engine `calculateScoresAndStreaks`, the standings source
`getRawStandings`, the aggregation endpoint `/api/multiconteststandings` and
the websocket subscription hub (`subscribe` / `unsubscribe`).

Modelling conventions:
- Contest identifiers are decimal strings in the source, compared with `===`
  and ordered with `parseInt`; they are modelled by their numeric value `ℕ`.
- JavaScript numbers (scores, penalties) are modelled by `ℚ`.
- `Array.prototype.sort` in Node is stable; it is modelled by a stable
  insertion sort `sortStable`.
- JS `Map`s (insert keeps position on existing keys, appends new keys) and
  plain objects used as dictionaries are modelled by association lists with
  the helpers `assocFind` / `assocUpsert` / `assocSetV` / `eraseKey`.
- Mutation is modelled by explicit state passing.
-/

namespace Codemon

/-- Lookup of the first entry with the given key in an association list
(JS `Map.get` / object property read). -/
def assocFind [DecidableEq κ] (k : κ) : List (κ × β) → Option β
  | [] => none
  | p :: ps => if p.1 = k then some p.2 else assocFind k ps

/-- Update the first entry with the given key in place, or append a new one
whose value is `f init` (the JS pattern `if (!m.has(k)) m.set(k, init);
mutate m.get(k) by f`). -/
def assocUpsert [DecidableEq κ] (k : κ) (init : β) (f : β → β) : List (κ × β) → List (κ × β)
  | [] => [(k, f init)]
  | p :: ps => if p.1 = k then (k, f p.2) :: ps else p :: assocUpsert k init f ps

/-- Set a key to a value: update in place when present, append when absent
(JS `Map.set` / object property write). -/
def assocSetV [DecidableEq κ] (k : κ) (v : β) : List (κ × β) → List (κ × β)
  | [] => [(k, v)]
  | p :: ps => if p.1 = k then (k, v) :: ps else p :: assocSetV k v ps

/-- Remove the first entry with the given key (JS `Map.delete`). -/
def eraseKey [DecidableEq κ] (k : κ) : List (κ × β) → List (κ × β)
  | [] => []
  | p :: ps => if p.1 = k then ps else p :: eraseKey k ps

/-- Insert `x` into a sorted list, after every element `y` with `le y x`:
the insertion step of a stable sort. -/
def insertStable (le : α → α → Bool) (x : α) : List α → List α
  | [] => [x]
  | y :: ys => if le y x then y :: insertStable le x ys else x :: y :: ys

/-- Stable insertion sort: elements that compare equal keep their original
relative order, like Node's `Array.prototype.sort`. -/
def sortStable (le : α → α → Bool) (l : List α) : List α :=
  l.foldl (fun acc x => insertStable le x acc) []

/-! ## Data model -/

/-- One per-problem result of a participant row
(`points`, `bestSubmissionTimeSeconds`, `rejectedAttemptCount`).
`bestTime = none` models an absent `bestSubmissionTimeSeconds`:
in JS `undefined < t` is `false`, so such results never win first-accept. -/
structure ProblemResult where
  points : ℚ
  bestTime : Option ℕ
  rejectedAttemptCount : ℕ
deriving DecidableEq

/-- A raw standings row: `row.party.members[0].handle` is flattened into
`handle`; `rank`, `points`, `penalty`, `problemResults` as in the source. -/
structure Row where
  handle : String
  rank : ℕ
  points : ℚ
  penalty : ℚ
  problemResults : List ProblemResult
deriving DecidableEq

/-- A row after the scoring engine ran: the original fields plus the fields
the engine adds (`baseScore`, `firstAcBonus`, `rawScore` in the first pass;
`customScore`, `streak`, `streakBonus` in the second; `rank` is overwritten
by re-ranking). -/
structure ScoredRow where
  handle : String
  rank : ℕ
  points : ℚ
  penalty : ℚ
  problemResults : List ProblemResult
  baseScore : ℚ
  firstAcBonus : ℚ
  rawScore : ℚ
  customScore : ℚ
  streak : ℕ
  streakBonus : ℚ
deriving DecidableEq

/-- One history entry `{ contestId, score, rank }`; `rank = none` models the
JS `rank: null` of an absent participant. -/
structure HistoryEntry where
  contestId : ℕ
  score : ℚ
  rank : Option ℕ
deriving DecidableEq

/-- `userHistory`: a JS `Map` from handle to that handle's entry list. -/
abbrev History := List (String × List HistoryEntry)

/-- The `contest` object carried by a standings payload. -/
structure Contest where
  id : ℕ
  name : String
deriving DecidableEq

/-- A raw standings payload.  `rows`/`problems` are `Option`s because the
source guards `!standingsData.rows` and `if (standingsData.problems)`.
Only the problem count is used, so slots are modelled by their names. -/
structure StandingsData where
  contest : Contest
  problems : Option (List String)
  rows : Option (List Row)
deriving DecidableEq

/-- The standings payload returned by the scoring engine: `rows` was
replaced by the scored, re-ranked rows. -/
structure ScoredStandings where
  contest : Contest
  problems : Option (List String)
  rows : Option (List ScoredRow)
deriving DecidableEq

/-! ## Scoring engine (`calculateScoresAndStreaks`) -/

/-- First-accept scan for problem slot `i`: the row with the smallest
`bestSubmissionTimeSeconds` among rows with positive points on `i`;
strict `<` means the first row encountered wins ties. -/
def firstAcScan (rows : List Row) (i : ℕ) : Option (String × ℕ) :=
  rows.foldl (fun acc row =>
    match row.problemResults[i]? with
    | some pr =>
      match pr.bestTime with
      | some t =>
        if 0 < pr.points then
          match acc with
          | none => some (row.handle, t)
          | some a => if t < a.2 then some (row.handle, t) else acc
        else acc
      | none => acc
    | none => acc) none

/-- `firstAcByProblem` as a lookup function: built only when `problems`
exists and only for indices below the problem count. -/
def faOf (probs : Option (List String)) (rows : List Row) : ℕ → Option (String × ℕ) :=
  match probs with
  | none => fun _ => none
  | some ps => fun i => if i < ps.length then firstAcScan rows i else none

/-- The ranked-bonus base score: `rank <= 30 ? 31 - rank : 0`. -/
def rankedBase (rank : ℕ) : ℚ := if rank ≤ 30 then 31 - (rank : ℚ) else 0

/-- Hardcoded first-accept bonuses for contest `'631209'`. -/
def bonus631209 (h : String) : ℚ :=
  if h = "rupenderyadav55" then 4 else if h = "rajzvx" then 4
  else if h = "Alok2122P" then 2 else if h = "SR_24MM" then 2 else 0

/-- Hardcoded first-accept bonuses for contest `'631210'`. -/
def bonus631210 (h : String) : ℚ :=
  if h = "rajzvx" then 4 else if h = "SR_24MM" then 2
  else if h = "SamyakJain092006" then 2 else if h = "subhamjyotimaha1" then 2 else 0

/-- Hardcoded first-accept bonuses for contest `'631211'`. -/
def bonus631211 (h : String) : ℚ :=
  if h = "Charan_Harsha" then 4 else if h = "rupenderyadav55" then 2
  else if h = "ammar_101" then 2 else if h = "krispatel2702" then 2 else 0

/-- Hardcoded manual base-score overrides for contest `'631211'`
(`14.9`, `16`, `22.36` as exact rationals). -/
def manual631211 (h : String) : Option ℚ :=
  if h = "SiddhantSangaonkar" then some (149/10)
  else if h = "SamyakJain092006" then some 16
  else if h = "HailOtg" then some (559/25) else none

/-- Hardcoded first-accept bonuses for contest `'631212'`. -/
def bonus631212 (h : String) : ℚ :=
  if h = "rupenderyadav55" then 4 else if h = "AbhinavChalla" then 2
  else if h = "SOHAM_MAHAJAN" then 2 else 0

/-- The detected first-accept bonus of the generic branch: `+2` for every
problem where this handle holds the recorded first accept with a matching
best-submission time. -/
def detectedFirstAcBonus (row : Row) (fa : ℕ → Option (String × ℕ)) : ℚ :=
  (List.range row.problemResults.length).foldl (fun b i =>
    match row.problemResults[i]?, fa i with
    | some pr, some a =>
      if 0 < pr.points ∧ a.1 = row.handle ∧ pr.bestTime = some a.2 then b + 2 else b
    | _, _ => b) 0

/-- The per-contest base-score / first-accept-bonus policy switch of the
scoring engine, one branch per hardcoded contest identifier, with the
generic branch (rows with positive points, ranked bonus, detected
first-accept bonus) as default. -/
def baseAndBonus (cid : ℕ) (row : Row) (fa : ℕ → Option (String × ℕ)) : ℚ × ℚ :=
  if cid = 631208 then (5, 0)
  else if cid = 631207 then (rankedBase row.rank, 0)
  else if cid = 631209 then (rankedBase row.rank, bonus631209 row.handle)
  else if cid = 631210 then (rankedBase row.rank, bonus631210 row.handle)
  else if cid = 631211 then
    ((manual631211 row.handle).getD (rankedBase row.rank), bonus631211 row.handle)
  else if cid = 631212 then
    (if row.rank ≤ 20 then 31 - (row.rank : ℚ) else 0, bonus631212 row.handle)
  else if 0 < row.points then (rankedBase row.rank, detectedFirstAcBonus row fa)
  else (0, 0)

/-- `{...row, rawScore, baseScore, firstAcBonus}`: the row copy produced by
the first scoring pass; the streak fields are filled in by the second pass. -/
def scoreRow (cid : ℕ) (fa : ℕ → Option (String × ℕ)) (row : Row) : ScoredRow :=
  ⟨row.handle, row.rank, row.points, row.penalty, row.problemResults,
   (baseAndBonus cid row fa).1, (baseAndBonus cid row fa).2,
   (baseAndBonus cid row fa).1 + (baseAndBonus cid row fa).2, 0, 0, 0⟩

/-- The history upsert: overwrite the first entry for this contest id
(`history.find(...)` then in-place mutation), or push a new entry. -/
def upsertEntry (cid : ℕ) (score : ℚ) (rank : ℕ) : List HistoryEntry → List HistoryEntry
  | [] => [⟨cid, score, some rank⟩]
  | e :: rest =>
    if e.contestId = cid then ⟨cid, score, some rank⟩ :: rest
    else e :: upsertEntry cid score rank rest

/-- First scoring pass: compute `rawScore` per row and upsert each row's
handle into the history. -/
def phaseA (cid : ℕ) (fa : ℕ → Option (String × ℕ)) :
    List Row → History → List ScoredRow × History
  | [], H => ([], H)
  | row :: rest, H =>
    let r := scoreRow cid fa row
    let H1 := assocUpsert row.handle [] (upsertEntry cid r.rawScore row.rank) H
    let p := phaseA cid fa rest H1
    (r :: p.1, p.2)

/-- History ordering: ascending by numeric contest identifier
(`parseInt(a.contestId) - parseInt(b.contestId)`). -/
def entryLe (a b : HistoryEntry) : Bool := decide (a.contestId ≤ b.contestId)

/-- `history.findIndex(h => h.contestId === contestId)`. -/
def findIdxCid (cid : ℕ) : List HistoryEntry → Option ℕ
  | [] => none
  | e :: rest => if e.contestId = cid then some 0 else (findIdxCid cid rest).map (· + 1)

/-- Length of the leading run of positive-score entries. -/
def leadPos : List HistoryEntry → ℕ
  | [] => 0
  | e :: rest => if 0 < e.score then leadPos rest + 1 else 0

/-- The streak of a handle at contest `cid`: locate `cid` in the sorted
history and walk backward while entries have positive score. -/
def streakAt (sorted : List HistoryEntry) (cid : ℕ) : ℕ :=
  match findIdxCid cid sorted with
  | none => 0
  | some idx => leadPos ((sorted.take (idx + 1)).reverse)

/-- The streak multiplier step function:
`streak >= 4 → 1.15, == 3 → 1.10, == 2 → 1.05, else 1.0`. -/
def streakMultiplier (streak : ℕ) : ℚ :=
  if 4 ≤ streak then 23/20 else if streak = 3 then 11/10
  else if streak = 2 then 21/20 else 1

/-- `{...row, customScore, streak, streakBonus}`. -/
def applyStreak (r : ScoredRow) (streak : ℕ) : ScoredRow :=
  { r with customScore := r.rawScore * streakMultiplier streak,
           streak := streak,
           streakBonus := r.rawScore * (streakMultiplier streak - 1) }

/-- Second scoring pass: sort each row's handle history in place (the JS
`.sort` mutates the stored array), read off the streak and apply the
multiplier. -/
def phaseB (cid : ℕ) : List ScoredRow → History → List ScoredRow × History
  | [], H => ([], H)
  | r :: rest, H =>
    let sorted := sortStable entryLe ((assocFind r.handle H).getD [])
    let H1 := assocSetV r.handle sorted H
    let p := phaseB cid rest H1
    (applyStreak r (streakAt sorted cid) :: p.1, p.2)

/-- Row ordering of the re-ranking sort: `customScore` descending,
tie-break `penalty` ascending (`b.customScore - a.customScore ||
a.penalty - b.penalty`). -/
def rowLe (a b : ScoredRow) : Bool :=
  decide (b.customScore < a.customScore) ||
    (decide (a.customScore = b.customScore) && decide (a.penalty ≤ b.penalty))

/-- The rank-assignment walk with its running state
(`index`, `currentRank`, `lastScore`, `lastPenalty`). -/
def assignRanks : List ScoredRow → ℕ → ℕ → ℚ → ℚ → List ScoredRow
  | [], _, _, _, _ => []
  | r :: rest, idx, cur, ls, lp =>
    if r.customScore = ls ∧ r.penalty = lp then
      { r with rank := cur } :: assignRanks rest (idx + 1) cur ls lp
    else
      { r with rank := idx + 1 } :: assignRanks rest (idx + 1) (idx + 1) r.customScore r.penalty

/-- Re-ranking: stable-sort by `rowLe`, then assign competition ranks
starting from `currentRank = 0, lastScore = -1, lastPenalty = -1`. -/
def rerank (rows : List ScoredRow) : List ScoredRow :=
  assignRanks (sortStable rowLe rows) 0 0 (-1) (-1)

/-- Number of entries for contest `cid` in an entry list. -/
def countCid (cid : ℕ) : List HistoryEntry → ℕ
  | [] => 0
  | e :: rest => (if e.contestId = cid then 1 else 0) + countCid cid rest

/-- Absent-participant pass: every handle in history that is not a contest
participant and has no entry for this contest gets a zero-score,
null-rank entry appended. -/
def phaseD (cid : ℕ) (parts : List String) (H : History) : History :=
  H.map (fun p =>
    if p.1 ∉ parts ∧ countCid cid p.2 = 0 then (p.1, p.2 ++ [⟨cid, 0, none⟩]) else p)

/-- The scoring engine `calculateScoresAndStreaks(standingsData, contestId,
userHistory)`.  Missing rows short-circuit to a pass-through; otherwise the
four passes run in source order: raw scores + history upsert, streaks,
re-ranking, absent-participant reset.  The threaded `History` models the
in-place mutation of `userHistory`. -/
def calculateScoresAndStreaks (sd : StandingsData) (cid : ℕ) (H : History) :
    ScoredStandings × History :=
  match sd.rows with
  | none => (⟨sd.contest, sd.problems, none⟩, H)
  | some rows =>
    let fa := faOf sd.problems rows
    let a := phaseA cid fa rows H
    let b := phaseB cid a.1 a.2
    let ranked := rerank b.1
    let H3 := phaseD cid (rows.map Row.handle) b.2
    (⟨sd.contest, sd.problems, some ranked⟩, H3)

/-! ## Standings source (`getRawStandings`) and aggregator
(`GET /api/multiconteststandings`) -/

/-- A Codeforces API payload as consumed by `getRawStandings`:
`{ status, result, comment }`. -/
structure CFResponse where
  status : String
  result : StandingsData
  comment : Option String

/-- The process environment of the standings source: the six parsed local
leaderboard files (`(rank, username)` records), the inverted username
mapping from `mapping.txt`, and the remote Codeforces fetch
(`fetchStandings`, network and signing abstracted away). -/
structure Env where
  codemon1 : List (ℕ × String)
  codemon2 : List (ℕ × String)
  codemon3 : List (ℕ × String)
  codemon4 : List (ℕ × String)
  codemon5 : List (ℕ × String)
  codemon6 : List (ℕ × String)
  mapping : List (String × String)
  remote : ℕ → CFResponse

/-- `invertedUsernameMapping[u] || u`. -/
def resolveHandle (env : Env) (u : String) : String := (assocFind u env.mapping).getD u

/-- `rank <= 30 ? 31 - rank : 0`, the points synthesized for local rows. -/
def cappedPoints (rank : ℕ) : ℚ := if rank ≤ 30 then 31 - (rank : ℚ) else 0

/-- A synthetic local-contest row: zero penalty, no problem results. -/
def localRow (handle : String) (rank : ℕ) (pts : ℚ) : Row := ⟨handle, rank, pts, 0, []⟩

/-- A synthetic standings payload: empty problem list, the given rows. -/
def syntheticStandings (id : ℕ) (name : String) (rows : List Row) : StandingsData :=
  ⟨⟨id, name⟩, some [], some rows⟩

/-- The three rank-999, zero-point rows pushed onto the Codemon 5 board. -/
def codemon5Extras : List Row :=
  [localRow "SiddhantSangaonkar" 999 0, localRow "SamyakJain092006" 999 0,
   localRow "HailOtg" 999 0]

/-- `getRawStandings(contestId)`: the six hardcoded synthetic contests, then
the remote fetch whose non-`'OK'` status throws `data.comment` or a generic
message.  The `contestCache` memoization is omitted: with a fixed
environment every fetch is deterministic, so the cache only short-circuits
recomputation and is observationally transparent here. -/
def getRawStandings (env : Env) (cid : ℕ) : Except String StandingsData :=
  if cid = 631207 then
    .ok (syntheticStandings 631207 "Codemon Contest 1"
      (env.codemon1.map (fun e => localRow e.2 e.1 (cappedPoints e.1))))
  else if cid = 631208 then
    .ok (syntheticStandings 631208 "Codemon Contest 2"
      (env.codemon2.map (fun e => localRow (resolveHandle env e.2) e.1 5)))
  else if cid = 631209 then
    .ok (syntheticStandings 631209 "Codemon Contest 3"
      (env.codemon3.map (fun e => localRow e.2 e.1 (cappedPoints e.1))))
  else if cid = 631210 then
    .ok (syntheticStandings 631210 "Codemon Contest 4"
      (env.codemon4.map (fun e => localRow (resolveHandle env e.2) e.1 (cappedPoints e.1))))
  else if cid = 631211 then
    .ok (syntheticStandings 631211 "Codemon Contest 5"
      (env.codemon5.map (fun e => localRow (resolveHandle env e.2) e.1 (cappedPoints e.1))
        ++ codemon5Extras))
  else if cid = 631212 then
    .ok (syntheticStandings 631212 "Codemon Contest 6"
      (env.codemon6.map (fun e => localRow (resolveHandle env e.2) e.1 (cappedPoints e.1))))
  else
    if (env.remote cid).status = "OK" then .ok (env.remote cid).result
    else .error (((env.remote cid).comment).getD
      ("Failed to fetch standings for contest " ++ toString cid))

/-- `Promise.all(ids.map(id => getRawStandings(id)))`: all fetches must
succeed; a failure rejects the whole batch with that failure's message. -/
def fetchAll (env : Env) : List ℕ → Except String (List StandingsData)
  | [] => .ok []
  | i :: is =>
    match getRawStandings env i with
    | .error e => .error e
    | .ok d =>
      match fetchAll env is with
      | .error e => .error e
      | .ok ds => .ok (d :: ds)

/-- Chronological ordering of fetched payloads:
`parseInt(a.contest.id) - parseInt(b.contest.id)` ascending. -/
def sdLe (a b : StandingsData) : Bool := decide (a.contest.id ≤ b.contest.id)

/-- Run the scoring engine over the chronologically sorted payloads against
one request-scoped history, recording each result under its contest id
(`processedContests[contestId] = ...`, later writes win). -/
def processAll (sds : List StandingsData) (H : History) :
    List (ℕ × ScoredStandings) × History :=
  sds.foldl (fun acc sd =>
    let r := calculateScoresAndStreaks sd sd.contest.id acc.2
    (assocSetV sd.contest.id r.1 acc.1, r.2)) ([], H)

/-- The per-contest breakdown stored on a cumulative entry
(`{score, rank, streak, baseScore, firstAcBonus, streakBonus}`). -/
structure Breakdown where
  score : ℚ
  rank : ℕ
  streak : ℕ
  baseScore : ℚ
  firstAcBonus : ℚ
  streakBonus : ℚ
deriving DecidableEq

/-- The value of one `cumulativeScores` map entry:
`{ score, penalty, contests }`. -/
structure CumData where
  score : ℚ
  penalty : ℚ
  contests : List (ℕ × Breakdown)
deriving DecidableEq

/-- `cumulativeScores`: handle → running totals. -/
abbrev CumMap := List (String × CumData)

/-- The breakdown recorded for one scored row. -/
def rowBreakdown (r : ScoredRow) : Breakdown :=
  ⟨r.customScore, r.rank, r.streak, r.baseScore, r.firstAcBonus, r.streakBonus⟩

/-- Add one scored row of contest `cid` onto the cumulative map: create the
handle's entry if absent, add `customScore`/`penalty`, set the `cid`
breakdown. -/
def addRow (cid : ℕ) (m : CumMap) (r : ScoredRow) : CumMap :=
  assocUpsert r.handle ⟨0, 0, []⟩
    (fun d => ⟨d.score + r.customScore, d.penalty + r.penalty,
               assocSetV cid (rowBreakdown r) d.contests⟩) m

/-- Fold a whole contest's scored rows onto the cumulative map. -/
def addContestRows (cid : ℕ) (rows : List ScoredRow) (m : CumMap) : CumMap :=
  rows.foldl (addRow cid) m

/-- One step of the cumulative loop over the originally requested ids:
a missing processed contest is skipped (`if (!contestData) continue`);
`for (const row of contestData.rows)` over an absent `rows` field throws
a TypeError, which the surrounding catch turns into a 500. -/
def accumContest (processed : List (ℕ × ScoredStandings)) (m : CumMap) (cid : ℕ) :
    Except String CumMap :=
  match assocFind cid processed with
  | none => .ok m
  | some out =>
    match out.rows with
    | none => .error "contestData.rows is not iterable"
    | some rows => .ok (addContestRows cid rows m)

/-- The cumulative loop over the requested ids in request order. -/
def accumAll (processed : List (ℕ × ScoredStandings)) :
    List ℕ → CumMap → Except String CumMap
  | [], m => .ok m
  | cid :: cids, m =>
    match accumContest processed m cid with
    | .error e => .error e
    | .ok m' => accumAll processed cids m'

/-- One final leaderboard entry `{handle, score, penalty, contests}`. -/
structure CumEntry where
  handle : String
  score : ℚ
  penalty : ℚ
  contests : List (ℕ × Breakdown)
deriving DecidableEq

/-- `({handle, ...data})`. -/
def toCumEntry (p : String × CumData) : CumEntry := ⟨p.1, p.2.score, p.2.penalty, p.2.contests⟩

/-- Leaderboard ordering: total score descending, total penalty ascending. -/
def lbLe (a b : CumEntry) : Bool :=
  decide (b.score < a.score) || (decide (a.score = b.score) && decide (a.penalty ≤ b.penalty))

/-- The contest-details lookup for the response's `problems` list: name of
the fetched payload with this id, else `Contest <id>`. -/
def contestName (datas : List StandingsData) (i : ℕ) : String :=
  match datas.find? (fun d => d.contest.id == i) with
  | some d => d.contest.name
  | none => "Contest " ++ toString i

/-- The JSON body of the endpoint: `{status:'OK', result:{leaderboard,
problems}}` or `{status:'FAILED', comment}`. -/
inductive ApiResponse where
  | ok (leaderboard : List CumEntry) (problems : List (ℕ × String))
  | failed (comment : String)
deriving DecidableEq

/-- `GET /api/multiconteststandings` as (HTTP status, body): 400 on a
missing `contestIds` parameter; fetch all ids, sort chronologically,
score sequentially against a fresh request-scoped history, accumulate in
request order, sort the leaderboard; any thrown error becomes a 500 with
the error message as comment. -/
def multiContestStandings (env : Env) (contestIds : Option (List ℕ)) : ℕ × ApiResponse :=
  match contestIds with
  | none => (400, .failed "contestIds query parameter is required")
  | some ids =>
    match fetchAll env ids with
    | .error e => (500, .failed e)
    | .ok datas =>
      let sorted := sortStable sdLe datas
      let processed := (processAll sorted []).1
      match accumAll processed ids [] with
      | .error e => (500, .failed e)
      | .ok m =>
        (200, .ok (sortStable lbLe (m.map toCumEntry))
          (ids.map (fun i => (i, contestName sorted i))))

/-! ## Subscription hub (`subscribe` / `unsubscribe`) -/

/-- The hub state: `rooms` (contest id → set of listeners, modelled as a
duplicate-free list of listener ids) and `intervals` (the contest ids with
a running poll timer). -/
structure HubState where
  rooms : List (ℕ × List ℕ)
  intervals : List ℕ
deriving DecidableEq

/-- `subscribe(ws, contestId)`: ensure the room exists, add the listener,
start the poll timer when none is running (the immediate
`pollAndBroadcast` touches no hub state). -/
def subscribe (s : HubState) (ws cid : ℕ) : HubState :=
  { rooms := assocUpsert cid [] (fun l => if ws ∈ l then l else l ++ [ws]) s.rooms,
    intervals := if cid ∈ s.intervals then s.intervals else s.intervals ++ [cid] }

/-- `unsubscribe(ws, contestId)`: no-op when the room is absent; otherwise
remove the listener, and when the room becomes empty delete it and clear
the timer. -/
def unsubscribe (s : HubState) (ws cid : ℕ) : HubState :=
  match assocFind cid s.rooms with
  | none => s
  | some l =>
    let rest := l.filter (fun w => w ≠ ws)
    if rest.isEmpty then
      { rooms := eraseKey cid s.rooms, intervals := s.intervals.filter (fun c => c ≠ cid) }
    else
      { rooms := assocSetV cid rest s.rooms, intervals := s.intervals }

/-- The hub states reachable from the empty initial state through
subscribe/unsubscribe steps. -/
inductive HubReachable : HubState → Prop
  | init : HubReachable ⟨[], []⟩
  | sub {s} (ws cid : ℕ) : HubReachable s → HubReachable (subscribe s ws cid)
  | unsub {s} (ws cid : ℕ) : HubReachable s → HubReachable (unsubscribe s ws cid)

/-! ## Derived notions used in the statements and proofs -/

/-- The entries of one contest id within an entry list. -/
def entriesFor (cid : ℕ) (l : List HistoryEntry) : List HistoryEntry :=
  l.filter (fun e => decide (e.contestId = cid))

/-- A handle's history list, empty when the handle is unknown. -/
def histOf (H : History) (h : String) : List HistoryEntry := (assocFind h H).getD []

/-- The sort key of the re-ranking pass. -/
def scoreKey (r : ScoredRow) : ℚ × ℚ := (r.customScore, r.penalty)

/-- The re-ranking order as a proposition on sort keys:
`customScore` descending, then `penalty` ascending. -/
def keyOrd (p q : ℚ × ℚ) : Prop := q.1 < p.1 ∨ (p.1 = q.1 ∧ p.2 ≤ q.2)

/-- `applyRow` split out: the update applied to one cumulative entry. -/
def applyRowData (cid : ℕ) (r : ScoredRow) (d : CumData) : CumData :=
  ⟨d.score + r.customScore, d.penalty + r.penalty,
   assocSetV cid (rowBreakdown r) d.contests⟩

/-- One requested contest id folded onto the cumulative map, in the pure
form taken when its processed rows exist (`accumContest` without the
throw case). -/
def stepAccum (processed : List (ℕ × ScoredStandings)) (m : CumMap) (cid : ℕ) : CumMap :=
  match assocFind cid processed with
  | none => m
  | some out => addContestRows cid (out.rows.getD []) m

/-- A fetch that succeeds with a payload whose contest id matches the
requested id and whose rows are present. -/
def fetchHonest (env : Env) (i : ℕ) : Bool :=
  match getRawStandings env i with
  | .ok d => decide (d.contest.id = i) && d.rows.isSome
  | .error _ => false

/-- The leaderboard entry of one handle in an endpoint response, if any. -/
def respFind (r : ℕ × ApiResponse) (h : String) : Option CumEntry :=
  match r.2 with
  | .ok lb _ => lb.find? (fun e => decide (e.handle = h))
  | .failed _ => none

/-- Leaderboard entries that agree on everything observable: handle,
totals, and the per-contest breakdown as a key-value mapping. -/
def cumEquiv (a b : CumEntry) : Prop :=
  a.handle = b.handle ∧ a.score = b.score ∧ a.penalty = b.penalty ∧
  ∀ cid, assocFind cid a.contests = assocFind cid b.contests

/-- `cumEquiv` lifted to optional lookup results. -/
def optCumEquiv : Option CumEntry → Option CumEntry → Prop
  | none, none => True
  | some a, some b => cumEquiv a b
  | _, _ => False

/-- Cumulative map values that agree on everything observable. -/
def dataEquiv (a b : CumData) : Prop :=
  a.score = b.score ∧ a.penalty = b.penalty ∧
  ∀ cid, assocFind cid a.contests = assocFind cid b.contests

/-- `dataEquiv` lifted to optional lookup results. -/
def optDataEquiv : Option CumData → Option CumData → Prop
  | none, none => True
  | some a, some b => dataEquiv a b
  | _, _ => False

/-- Cumulative maps with observably equal lookups at every handle. -/
def mapEquiv (m m' : CumMap) : Prop := ∀ h, optDataEquiv (assocFind h m) (assocFind h m')

/-- The subscription-hub invariant: room listener sets are non-empty,
room keys are unique, and a poll timer exists exactly for the contest ids
with a non-empty listener set. -/
def hubInv (s : HubState) : Prop :=
  (s.rooms.map Prod.fst).Nodup ∧ (∀ p ∈ s.rooms, p.2 ≠ []) ∧
  ∀ cid, cid ∈ s.intervals ↔ ∃ l, assocFind cid s.rooms = some l ∧ l ≠ []

/-- Every handle's entry list mentions each contest id at most once. -/
def histNodupC (H : History) : Prop :=
  ∀ p ∈ H, (p.2.map HistoryEntry.contestId).Nodup

/-- The payload of a successful fetch (a dummy payload for the failure
case, which the honest-fetch hypotheses rule out). -/
def fetchData (env : Env) (i : ℕ) : StandingsData :=
  match getRawStandings env i with
  | .ok d => d
  | .error _ => ⟨⟨0, ""⟩, none, none⟩

/-- One step of `processAll` as a named function. -/
def processStep (acc : List (ℕ × ScoredStandings) × History) (sd : StandingsData) :
    List (ℕ × ScoredStandings) × History :=
  (assocSetV sd.contest.id (calculateScoresAndStreaks sd sd.contest.id acc.2).1 acc.1,
   (calculateScoresAndStreaks sd sd.contest.id acc.2).2)

/-! ## Association-list lemmas -/

theorem assocFind_upsert_self [DecidableEq κ] (k : κ) (init : β) (f : β → β)
    (l : List (κ × β)) :
    assocFind k (assocUpsert k init f l) = some (f ((assocFind k l).getD init)) := by
  induction l with
  | nil => simp [assocFind, assocUpsert]
  | cons p ps ih =>
    by_cases h : p.1 = k
    · simp [assocFind, assocUpsert, h]
    · simp [assocFind, assocUpsert, h, ih]

theorem assocFind_upsert_ne [DecidableEq κ] {k k' : κ} (init : β) (f : β → β)
    (l : List (κ × β)) (h : k' ≠ k) :
    assocFind k' (assocUpsert k init f l) = assocFind k' l := by
  induction l with
  | nil => simp [assocFind, assocUpsert, Ne.symm h]
  | cons p ps ih =>
    by_cases hp : p.1 = k
    · simp [assocFind, assocUpsert, hp, Ne.symm h]
    · simp only [assocUpsert, if_neg hp, assocFind]
      by_cases hp' : p.1 = k'
      · simp [hp']
      · simp [hp', ih]

theorem assocFind_setV_self [DecidableEq κ] (k : κ) (v : β) (l : List (κ × β)) :
    assocFind k (assocSetV k v l) = some v := by
  induction l with
  | nil => simp [assocFind, assocSetV]
  | cons p ps ih =>
    by_cases h : p.1 = k
    · simp [assocFind, assocSetV, h]
    · simp [assocFind, assocSetV, h, ih]

theorem assocFind_setV_ne [DecidableEq κ] {k k' : κ} (v : β) (l : List (κ × β))
    (h : k' ≠ k) : assocFind k' (assocSetV k v l) = assocFind k' l := by
  induction l with
  | nil => simp [assocFind, assocSetV, Ne.symm h]
  | cons p ps ih =>
    by_cases hp : p.1 = k
    · simp [assocFind, assocSetV, hp, Ne.symm h]
    · simp only [assocSetV, if_neg hp, assocFind]
      by_cases hp' : p.1 = k'
      · simp [hp']
      · simp [hp', ih]

theorem assocFind_eq_none [DecidableEq κ] (k : κ) (l : List (κ × β)) :
    assocFind k l = none ↔ k ∉ l.map Prod.fst := by
  induction l with
  | nil => simp [assocFind]
  | cons p ps ih =>
    by_cases h : p.1 = k
    · simp [assocFind, h]
    · simp [assocFind, h, ih, Ne.symm h]

theorem assocFind_some_mem [DecidableEq κ] {k : κ} {v : β} {l : List (κ × β)}
    (h : assocFind k l = some v) : (k, v) ∈ l := by
  induction l with
  | nil => simp [assocFind] at h
  | cons p ps ih =>
    by_cases hp : p.1 = k
    · simp only [assocFind, if_pos hp, Option.some.injEq] at h
      have hpv : p = (k, v) := by
        obtain ⟨a, b⟩ := p
        simp only [Prod.mk.injEq]
        exact ⟨hp, h⟩
      exact List.mem_cons.mpr (Or.inl hpv.symm)
    · simp only [assocFind, if_neg hp] at h
      exact List.mem_cons_of_mem _ (ih h)

theorem assocUpsert_mem [DecidableEq κ] {k : κ} {init : β} {f : β → β}
    {l : List (κ × β)} {q : κ × β} (hq : q ∈ assocUpsert k init f l) :
    (∃ v, q = (k, f v) ∧ (v = init ∨ (k, v) ∈ l)) ∨ q ∈ l := by
  induction l with
  | nil =>
    simp only [assocUpsert, List.mem_singleton] at hq
    exact Or.inl ⟨init, hq, Or.inl rfl⟩
  | cons p ps ih =>
    by_cases hp : p.1 = k
    · simp only [assocUpsert, if_pos hp, List.mem_cons] at hq
      rcases hq with hq | hq
      · refine Or.inl ⟨p.2, hq, Or.inr ?_⟩
        rw [← hp]
        exact List.mem_cons_self _ _
      · exact Or.inr (List.mem_cons_of_mem _ hq)
    · simp only [assocUpsert, if_neg hp, List.mem_cons] at hq
      rcases hq with hq | hq
      · exact Or.inr (by simp [hq])
      · rcases ih hq with ⟨v, hv, hm⟩ | hm
        · exact Or.inl ⟨v, hv, hm.imp id (List.mem_cons_of_mem _)⟩
        · exact Or.inr (List.mem_cons_of_mem _ hm)

theorem assocSetV_mem [DecidableEq κ] {k : κ} {v : β} {l : List (κ × β)}
    {q : κ × β} (hq : q ∈ assocSetV k v l) : q = (k, v) ∨ q ∈ l := by
  induction l with
  | nil => simpa [assocSetV] using hq
  | cons p ps ih =>
    by_cases hp : p.1 = k
    · simp only [assocSetV, if_pos hp, List.mem_cons] at hq
      exact hq.imp id (List.mem_cons_of_mem _)
    · simp only [assocSetV, if_neg hp, List.mem_cons] at hq
      rcases hq with hq | hq
      · exact Or.inr (by simp [hq])
      · exact (ih hq).imp id (List.mem_cons_of_mem _)

theorem assocUpsert_keys_mem [DecidableEq κ] {k : κ} (init : β) (f : β → β)
    {l : List (κ × β)} (h : k ∈ l.map Prod.fst) :
    (assocUpsert k init f l).map Prod.fst = l.map Prod.fst := by
  induction l with
  | nil => simp at h
  | cons p ps ih =>
    by_cases hp : p.1 = k
    · simp [assocUpsert, hp]
    · simp only [List.map_cons, List.mem_cons] at h
      rcases h with h | h
      · exact absurd h.symm hp
      · simp [assocUpsert, hp, ih h]

theorem assocUpsert_keys_not_mem [DecidableEq κ] {k : κ} (init : β) (f : β → β)
    {l : List (κ × β)} (h : k ∉ l.map Prod.fst) :
    (assocUpsert k init f l).map Prod.fst = l.map Prod.fst ++ [k] := by
  induction l with
  | nil => simp [assocUpsert]
  | cons p ps ih =>
    simp only [List.map_cons, List.mem_cons] at h
    push_neg at h
    have hp : p.1 ≠ k := Ne.symm h.1
    simp [assocUpsert, hp, ih h.2]

theorem assocSetV_keys_mem [DecidableEq κ] {k : κ} (v : β) {l : List (κ × β)}
    (h : k ∈ l.map Prod.fst) :
    (assocSetV k v l).map Prod.fst = l.map Prod.fst := by
  induction l with
  | nil => simp at h
  | cons p ps ih =>
    by_cases hp : p.1 = k
    · simp [assocSetV, hp]
    · simp only [List.map_cons, List.mem_cons] at h
      rcases h with h | h
      · exact absurd h.symm hp
      · simp [assocSetV, hp, ih h]

theorem assocUpsert_keys_nodup [DecidableEq κ] {k : κ} (init : β) (f : β → β)
    {l : List (κ × β)} (h : (l.map Prod.fst).Nodup) :
    ((assocUpsert k init f l).map Prod.fst).Nodup := by
  by_cases hk : k ∈ l.map Prod.fst
  · rw [assocUpsert_keys_mem init f hk]; exact h
  · rw [assocUpsert_keys_not_mem init f hk]
    simp [List.nodup_append, h, hk]

theorem assocUpsert_id [DecidableEq κ] {k : κ} {v : β} (init : β) {f : β → β}
    {l : List (κ × β)} (hfind : assocFind k l = some v) (hf : f v = v) :
    assocUpsert k init f l = l := by
  induction l with
  | nil => simp [assocFind] at hfind
  | cons p ps ih =>
    by_cases hp : p.1 = k
    · simp only [assocFind, if_pos hp, Option.some.injEq] at hfind
      simp only [assocUpsert, if_pos hp, hfind, hf]
      rw [← hp, ← hfind]
    · simp only [assocFind, if_neg hp] at hfind
      simp [assocUpsert, hp, ih hfind]

theorem assocSetV_id [DecidableEq κ] {k : κ} {v : β} {l : List (κ × β)}
    (hfind : assocFind k l = some v) : assocSetV k v l = l := by
  induction l with
  | nil => simp [assocFind] at hfind
  | cons p ps ih =>
    by_cases hp : p.1 = k
    · simp only [assocFind, if_pos hp, Option.some.injEq] at hfind
      simp only [assocSetV, if_pos hp]
      rw [← hp, ← hfind]
    · simp only [assocFind, if_neg hp] at hfind
      simp [assocSetV, hp, ih hfind]

theorem eraseKey_sublist [DecidableEq κ] (k : κ) (l : List (κ × β)) :
    List.Sublist (eraseKey k l) l := by
  induction l with
  | nil => simp [eraseKey]
  | cons p ps ih =>
    by_cases hp : p.1 = k
    · simp only [eraseKey, if_pos hp]
      exact List.sublist_cons_of_sublist _ (List.Sublist.refl _)
    · simp only [eraseKey, if_neg hp]
      exact List.Sublist.cons₂ _ ih

theorem assocFind_eraseKey_self [DecidableEq κ] {k : κ} {l : List (κ × β)}
    (hn : (l.map Prod.fst).Nodup) : assocFind k (eraseKey k l) = none := by
  induction l with
  | nil => simp [eraseKey, assocFind]
  | cons p ps ih =>
    simp only [List.map_cons, List.nodup_cons] at hn
    by_cases hp : p.1 = k
    · simp only [eraseKey, if_pos hp]
      rw [assocFind_eq_none]
      rw [hp] at hn
      exact hn.1
    · simp [eraseKey, assocFind, hp, ih hn.2]

theorem assocFind_eraseKey_ne [DecidableEq κ] {k k' : κ} (l : List (κ × β))
    (h : k' ≠ k) : assocFind k' (eraseKey k l) = assocFind k' l := by
  induction l with
  | nil => simp [eraseKey]
  | cons p ps ih =>
    by_cases hp : p.1 = k
    · simp [eraseKey, assocFind, hp, Ne.symm h]
    · simp only [eraseKey, if_neg hp, assocFind]
      by_cases hp' : p.1 = k'
      · simp [hp']
      · simp [hp', ih]

/-! ## Stable-sort lemmas -/

theorem mem_insertStable (le : α → α → Bool) (x a : α) (l : List α) :
    a ∈ insertStable le x l ↔ a = x ∨ a ∈ l := by
  induction l with
  | nil => simp [insertStable]
  | cons y ys ih =>
    by_cases h : le y x = true
    · simp only [insertStable, if_pos h, List.mem_cons, ih]
      tauto
    · simp only [insertStable, if_neg h, List.mem_cons]

theorem insertStable_perm (le : α → α → Bool) (x : α) (l : List α) :
    List.Perm (insertStable le x l) (x :: l) := by
  induction l with
  | nil => simp [insertStable]
  | cons y ys ih =>
    by_cases h : le y x = true
    · simp only [insertStable, if_pos h]
      exact (ih.cons y).trans (List.Perm.swap x y ys)
    · simp [insertStable, h]

theorem sortStable_perm_aux (le : α → α → Bool) :
    ∀ (l acc : List α),
      List.Perm (l.foldl (fun a x => insertStable le x a) acc) (acc ++ l) := by
  intro l
  induction l with
  | nil => intro acc; simp
  | cons x xs ih =>
    intro acc
    have h1 := ih (insertStable le x acc)
    have h2 : List.Perm (insertStable le x acc ++ xs) ((x :: acc) ++ xs) :=
      (insertStable_perm le x acc).append_right xs
    simpa using (h1.trans h2).trans List.perm_middle.symm

theorem sortStable_perm (le : α → α → Bool) (l : List α) :
    List.Perm (sortStable le l) l := by
  simpa using sortStable_perm_aux le l []

theorem insertStable_pairwise (le : α → α → Bool)
    (htot : ∀ a b, le a b = true ∨ le b a = true)
    (htrans : ∀ a b c, le a b = true → le b c = true → le a c = true)
    {x : α} {l : List α} (h : l.Pairwise (fun a b => le a b = true)) :
    (insertStable le x l).Pairwise (fun a b => le a b = true) := by
  induction l with
  | nil => simp [insertStable]
  | cons y ys ih =>
    rcases List.pairwise_cons.mp h with ⟨hy, hys⟩
    by_cases hle : le y x = true
    · simp only [insertStable, if_pos hle]
      refine List.pairwise_cons.mpr ⟨?_, ih hys⟩
      intro z hz
      rcases (mem_insertStable le x z ys).mp hz with rfl | hz
      · exact hle
      · exact hy z hz
    · simp only [insertStable, if_neg hle]
      have hxy : le x y = true := (htot y x).resolve_left hle
      refine List.pairwise_cons.mpr ⟨?_, h⟩
      intro z hz
      rcases List.mem_cons.mp hz with rfl | hz
      · exact hxy
      · exact htrans x y z hxy (hy z hz)

theorem sortStable_pairwise_aux (le : α → α → Bool)
    (htot : ∀ a b, le a b = true ∨ le b a = true)
    (htrans : ∀ a b c, le a b = true → le b c = true → le a c = true) :
    ∀ (l acc : List α), acc.Pairwise (fun a b => le a b = true) →
      (l.foldl (fun a x => insertStable le x a) acc).Pairwise (fun a b => le a b = true) := by
  intro l
  induction l with
  | nil => intro acc hacc; simpa using hacc
  | cons x xs ih =>
    intro acc hacc
    exact ih (insertStable le x acc) (insertStable_pairwise le htot htrans hacc)

theorem sortStable_pairwise (le : α → α → Bool)
    (htot : ∀ a b, le a b = true ∨ le b a = true)
    (htrans : ∀ a b c, le a b = true → le b c = true → le a c = true)
    (l : List α) :
    (sortStable le l).Pairwise (fun a b => le a b = true) :=
  sortStable_pairwise_aux le htot htrans l [] (by simp)

theorem insertStable_append (le : α → α → Bool) {x : α} {l : List α}
    (h : ∀ y ∈ l, le y x = true) : insertStable le x l = l ++ [x] := by
  induction l with
  | nil => simp [insertStable]
  | cons y ys ih =>
    have hy : le y x = true := h y (List.mem_cons_self y ys)
    simp only [insertStable, if_pos hy, List.cons_append]
    rw [ih (fun z hz => h z (List.mem_cons_of_mem y hz))]

theorem sortStable_eq_self_aux (le : α → α → Bool) :
    ∀ (l acc : List α), (acc ++ l).Pairwise (fun a b => le a b = true) →
      l.foldl (fun a x => insertStable le x a) acc = acc ++ l := by
  intro l
  induction l with
  | nil => intro acc _; simp
  | cons x xs ih =>
    intro acc hacc
    have hins : insertStable le x acc = acc ++ [x] := by
      refine insertStable_append le ?_
      intro y hy
      exact (List.pairwise_append.mp hacc).2.2 y hy x (List.mem_cons_self x xs)
    have hacc' : ((acc ++ [x]) ++ xs).Pairwise (fun a b => le a b = true) := by
      simpa [List.append_assoc] using hacc
    calc (x :: xs).foldl (fun a x => insertStable le x a) acc
        = xs.foldl (fun a x => insertStable le x a) (insertStable le x acc) := rfl
      _ = xs.foldl (fun a x => insertStable le x a) (acc ++ [x]) := by rw [hins]
      _ = (acc ++ [x]) ++ xs := ih (acc ++ [x]) hacc'
      _ = acc ++ x :: xs := by simp

theorem sortStable_eq_self (le : α → α → Bool) {l : List α}
    (h : l.Pairwise (fun a b => le a b = true)) : sortStable le l = l := by
  simpa using sortStable_eq_self_aux le l [] (by simpa using h)

theorem sorted_perm_eq {R : α → α → Prop} :
    ∀ {l₁ l₂ : List α}, List.Perm l₁ l₂ → l₁.Pairwise R → l₂.Pairwise R →
      (∀ a ∈ l₁, ∀ b ∈ l₁, R a b → R b a → a = b) → l₁ = l₂ := by
  intro l₁
  induction l₁ with
  | nil =>
    intro l₂ hp _ _ _
    exact hp.nil_eq
  | cons a t₁ ih =>
    intro l₂ hp h₁ h₂ hanti
    cases l₂ with
    | nil => exact absurd hp.eq_nil (by simp)
    | cons b t₂ =>
      have hab : a = b := by
        by_cases hEq : a = b
        · exact hEq
        · have ha2 : a ∈ b :: t₂ := hp.mem_iff.mp (List.mem_cons_self a t₁)
          have hb1 : b ∈ a :: t₁ := hp.symm.mem_iff.mp (List.mem_cons_self b t₂)
          have hat2 : a ∈ t₂ := by
            rcases List.mem_cons.mp ha2 with h | h
            · exact absurd h hEq
            · exact h
          have hbt1 : b ∈ t₁ := by
            rcases List.mem_cons.mp hb1 with h | h
            · exact absurd h.symm hEq
            · exact h
          have hRab : R a b := (List.pairwise_cons.mp h₁).1 b hbt1
          have hRba : R b a := (List.pairwise_cons.mp h₂).1 a hat2
          exact hanti a (List.mem_cons_self a t₁) b (List.mem_cons_of_mem a hbt1) hRab hRba
      subst hab
      have ht : List.Perm t₁ t₂ := hp.cons_inv
      have := ih ht (List.pairwise_cons.mp h₁).2 (List.pairwise_cons.mp h₂).2
        (fun x hx y hy => hanti x (List.mem_cons_of_mem a hx) y (List.mem_cons_of_mem a hy))
      rw [this]

/-! ## Totality and transitivity of the concrete orderings -/

theorem entryLe_total : ∀ a b : HistoryEntry, entryLe a b = true ∨ entryLe b a = true := by
  intro a b
  simp only [entryLe, decide_eq_true_eq]
  omega

theorem entryLe_trans :
    ∀ a b c : HistoryEntry, entryLe a b = true → entryLe b c = true → entryLe a c = true := by
  intro a b c
  simp only [entryLe, decide_eq_true_eq]
  omega

theorem lexQLe_total (s p : α → ℚ) (a b : α) :
    (decide (s b < s a) || (decide (s a = s b) && decide (p a ≤ p b))) = true ∨
    (decide (s a < s b) || (decide (s b = s a) && decide (p b ≤ p a))) = true := by
  simp only [Bool.or_eq_true, Bool.and_eq_true, decide_eq_true_eq]
  rcases lt_trichotomy (s a) (s b) with h | h | h
  · exact Or.inr (Or.inl h)
  · rcases le_total (p a) (p b) with hp | hp
    · exact Or.inl (Or.inr ⟨h, hp⟩)
    · exact Or.inr (Or.inr ⟨h.symm, hp⟩)
  · exact Or.inl (Or.inl h)

theorem lexQLe_trans (s p : α → ℚ) (a b c : α)
    (hab : (decide (s b < s a) || (decide (s a = s b) && decide (p a ≤ p b))) = true)
    (hbc : (decide (s c < s b) || (decide (s b = s c) && decide (p b ≤ p c))) = true) :
    (decide (s c < s a) || (decide (s a = s c) && decide (p a ≤ p c))) = true := by
  simp only [Bool.or_eq_true, Bool.and_eq_true, decide_eq_true_eq] at *
  rcases hab with h | ⟨h1, h2⟩ <;> rcases hbc with g | ⟨g1, g2⟩
  · exact Or.inl (g.trans h)
  · exact Or.inl (g1 ▸ h)
  · exact Or.inl (h1 ▸ g)
  · exact Or.inr ⟨h1.trans g1, h2.trans g2⟩

theorem rowLe_total : ∀ a b : ScoredRow, rowLe a b = true ∨ rowLe b a = true := by
  intro a b
  exact lexQLe_total ScoredRow.customScore ScoredRow.penalty a b

theorem rowLe_trans :
    ∀ a b c : ScoredRow, rowLe a b = true → rowLe b c = true → rowLe a c = true := by
  intro a b c
  exact lexQLe_trans ScoredRow.customScore ScoredRow.penalty a b c

theorem lbLe_total : ∀ a b : CumEntry, lbLe a b = true ∨ lbLe b a = true := by
  intro a b
  exact lexQLe_total CumEntry.score CumEntry.penalty a b

theorem lbLe_trans :
    ∀ a b c : CumEntry, lbLe a b = true → lbLe b c = true → lbLe a c = true := by
  intro a b c
  exact lexQLe_trans CumEntry.score CumEntry.penalty a b c

theorem sdLe_total : ∀ a b : StandingsData, sdLe a b = true ∨ sdLe b a = true := by
  intro a b
  simp only [sdLe, decide_eq_true_eq]
  omega

theorem sdLe_trans :
    ∀ a b c : StandingsData, sdLe a b = true → sdLe b c = true → sdLe a c = true := by
  intro a b c
  simp only [sdLe, decide_eq_true_eq]
  omega

/-! ## History-entry lemmas -/

theorem entriesFor_cons (cid : ℕ) (e : HistoryEntry) (l : List HistoryEntry) :
    entriesFor cid (e :: l) =
      if e.contestId = cid then e :: entriesFor cid l else entriesFor cid l := by
  by_cases he : e.contestId = cid <;> simp [entriesFor, List.filter_cons, he]

theorem countCid_entriesFor (cid : ℕ) (l : List HistoryEntry) :
    countCid cid l = (entriesFor cid l).length := by
  induction l with
  | nil => rfl
  | cons e rest ih =>
    rw [countCid, entriesFor_cons]
    by_cases he : e.contestId = cid <;> simp [he, ih, Nat.add_comm]

theorem entriesFor_append (cid : ℕ) (l₁ l₂ : List HistoryEntry) :
    entriesFor cid (l₁ ++ l₂) = entriesFor cid l₁ ++ entriesFor cid l₂ := by
  simp [entriesFor, List.filter_append]

theorem entriesFor_eq_nil {cid : ℕ} {l : List HistoryEntry} (h : countCid cid l = 0) :
    entriesFor cid l = [] := by
  have hl := countCid_entriesFor cid l
  rw [h] at hl
  exact List.eq_nil_of_length_eq_zero hl.symm

theorem countCid_append (cid : ℕ) (l₁ l₂ : List HistoryEntry) :
    countCid cid (l₁ ++ l₂) = countCid cid l₁ + countCid cid l₂ := by
  induction l₁ with
  | nil => simp [countCid]
  | cons e rest ih => simp [countCid, ih]; ring

theorem countCid_pos_iff (cid : ℕ) (l : List HistoryEntry) :
    0 < countCid cid l ↔ cid ∈ l.map HistoryEntry.contestId := by
  induction l with
  | nil => simp [countCid]
  | cons e rest ih =>
    by_cases he : e.contestId = cid
    · simp [countCid, he]
    · simp [countCid, he, ih, Ne.symm he]

theorem upsertEntry_entriesFor {cid : ℕ} {l : List HistoryEntry} (v : ℚ) (rk : ℕ)
    (h : countCid cid l ≤ 1) :
    entriesFor cid (upsertEntry cid v rk l) = [⟨cid, v, some rk⟩] := by
  induction l with
  | nil => simp [upsertEntry, entriesFor]
  | cons e rest ih =>
    by_cases he : e.contestId = cid
    · have hrest : countCid cid rest = 0 := by
        simp only [countCid, if_pos he] at h
        omega
      simp only [upsertEntry, if_pos he, entriesFor_cons, if_pos rfl]
      simp [entriesFor_eq_nil hrest]
    · have h' : countCid cid rest ≤ 1 := by
        simpa [countCid, he] using h
      simp only [upsertEntry, if_neg he, entriesFor_cons, if_neg he]
      exact ih h'

theorem upsertEntry_self {cid : ℕ} {v : ℚ} {rk : ℕ} {l : List HistoryEntry}
    (h : entriesFor cid l = [⟨cid, v, some rk⟩]) : upsertEntry cid v rk l = l := by
  induction l with
  | nil => simp [entriesFor] at h
  | cons e rest ih =>
    by_cases he : e.contestId = cid
    · rw [entriesFor_cons, if_pos he] at h
      have h1 : e = ⟨cid, v, some rk⟩ := (List.cons_eq_cons.mp h).1
      simp only [upsertEntry, if_pos he, h1]
      simp
    · rw [entriesFor_cons, if_neg he] at h
      simp only [upsertEntry, if_neg he]
      rw [ih h]

theorem upsertEntry_map_cid_pos {cid : ℕ} {l : List HistoryEntry} (v : ℚ) (rk : ℕ)
    (h : 0 < countCid cid l) :
    (upsertEntry cid v rk l).map HistoryEntry.contestId = l.map HistoryEntry.contestId := by
  induction l with
  | nil => simp [countCid] at h
  | cons e rest ih =>
    by_cases he : e.contestId = cid
    · simp [upsertEntry, he]
    · have h' : 0 < countCid cid rest := by simpa [countCid, he] using h
      simp [upsertEntry, he, ih h']

theorem upsertEntry_map_cid_zero {cid : ℕ} {l : List HistoryEntry} (v : ℚ) (rk : ℕ)
    (h : countCid cid l = 0) :
    (upsertEntry cid v rk l).map HistoryEntry.contestId =
      l.map HistoryEntry.contestId ++ [cid] := by
  induction l with
  | nil => simp [upsertEntry]
  | cons e rest ih =>
    by_cases he : e.contestId = cid
    · simp [countCid, he] at h
    · have h' : countCid cid rest = 0 := by simpa [countCid, he] using h
      simp [upsertEntry, he, ih h']

theorem upsertEntry_nodupC {cid : ℕ} {l : List HistoryEntry} (v : ℚ) (rk : ℕ)
    (h : (l.map HistoryEntry.contestId).Nodup) :
    ((upsertEntry cid v rk l).map HistoryEntry.contestId).Nodup := by
  by_cases h0 : countCid cid l = 0
  · rw [upsertEntry_map_cid_zero v rk h0]
    have : cid ∉ l.map HistoryEntry.contestId := by
      rw [← countCid_pos_iff]
      omega
    simp [List.nodup_append, h, this]
  · rw [upsertEntry_map_cid_pos v rk (Nat.pos_of_ne_zero h0)]
    exact h

/-! ## Scoring-pass characterization lemmas -/

theorem phaseA_fst (cid : ℕ) (fa : ℕ → Option (String × ℕ)) :
    ∀ (rows : List Row) (H : History),
      (phaseA cid fa rows H).1 = rows.map (scoreRow cid fa) := by
  intro rows
  induction rows with
  | nil => intro H; rfl
  | cons row rest ih =>
    intro H
    simp only [phaseA, List.map_cons, List.cons.injEq]
    exact ⟨trivial, ih _⟩

theorem phaseA_find_ne (cid : ℕ) (fa : ℕ → Option (String × ℕ)) {h : String} :
    ∀ (rows : List Row) (H : History), h ∉ rows.map Row.handle →
      assocFind h (phaseA cid fa rows H).2 = assocFind h H := by
  intro rows
  induction rows with
  | nil => intro H _; rfl
  | cons row rest ih =>
    intro H hh
    simp only [List.map_cons, List.mem_cons] at hh
    push_neg at hh
    simp only [phaseA]
    rw [ih _ hh.2, assocFind_upsert_ne _ _ _ hh.1]

theorem phaseA_find_mem (cid : ℕ) (fa : ℕ → Option (String × ℕ)) :
    ∀ (rows : List Row) (H : History) (row : Row),
      (rows.map Row.handle).Nodup → row ∈ rows →
      assocFind row.handle (phaseA cid fa rows H).2 =
        some (upsertEntry cid (scoreRow cid fa row).rawScore row.rank
          ((assocFind row.handle H).getD [])) := by
  intro rows
  induction rows with
  | nil =>
    intro H row _ hmem
    simp at hmem
  | cons r0 rest ih =>
    intro H row hnd hmem
    simp only [List.map_cons, List.nodup_cons] at hnd
    rcases List.mem_cons.mp hmem with rfl | hmem
    · simp only [phaseA]
      rw [phaseA_find_ne cid fa rest _ hnd.1, assocFind_upsert_self]
    · have hr0 : row.handle ∈ rest.map Row.handle := List.mem_map_of_mem Row.handle hmem
      have hne : row.handle ≠ r0.handle := fun hEq => hnd.1 (hEq ▸ hr0)
      simp only [phaseA]
      rw [ih _ row hnd.2 hmem, assocFind_upsert_ne _ _ _ hne]

theorem phaseA_id (cid : ℕ) (fa : ℕ → Option (String × ℕ)) :
    ∀ (rows : List Row) (H : History),
      (∀ row ∈ rows, ∃ l, assocFind row.handle H = some l ∧
          upsertEntry cid (scoreRow cid fa row).rawScore row.rank l = l) →
      (phaseA cid fa rows H).2 = H := by
  intro rows
  induction rows with
  | nil => intro H _; rfl
  | cons row rest ih =>
    intro H hall
    obtain ⟨l, hfind, hup⟩ := hall row (List.mem_cons_self row rest)
    have hH1 : assocUpsert row.handle []
        (upsertEntry cid (scoreRow cid fa row).rawScore row.rank) H = H :=
      assocUpsert_id [] hfind hup
    simp only [phaseA, hH1]
    exact ih H (fun r hr => hall r (List.mem_cons_of_mem row hr))

theorem phaseB_find_ne (cid : ℕ) {h : String} :
    ∀ (rows : List ScoredRow) (H : History), h ∉ rows.map ScoredRow.handle →
      assocFind h (phaseB cid rows H).2 = assocFind h H := by
  intro rows
  induction rows with
  | nil => intro H _; rfl
  | cons r rest ih =>
    intro H hh
    simp only [List.map_cons, List.mem_cons] at hh
    push_neg at hh
    simp only [phaseB]
    rw [ih _ hh.2, assocFind_setV_ne _ _ hh.1]

theorem phaseB_find_mem (cid : ℕ) :
    ∀ (rows : List ScoredRow) (H : History) (r : ScoredRow),
      (rows.map ScoredRow.handle).Nodup → r ∈ rows →
      assocFind r.handle (phaseB cid rows H).2 =
        some (sortStable entryLe ((assocFind r.handle H).getD [])) := by
  intro rows
  induction rows with
  | nil =>
    intro H r _ hmem
    simp at hmem
  | cons r0 rest ih =>
    intro H r hnd hmem
    simp only [List.map_cons, List.nodup_cons] at hnd
    rcases List.mem_cons.mp hmem with rfl | hmem
    · simp only [phaseB]
      rw [phaseB_find_ne cid rest _ hnd.1, assocFind_setV_self]
    · have hr0 : r.handle ∈ rest.map ScoredRow.handle :=
        List.mem_map_of_mem ScoredRow.handle hmem
      have hne : r.handle ≠ r0.handle := fun hEq => hnd.1 (hEq ▸ hr0)
      simp only [phaseB]
      rw [ih _ r hnd.2 hmem, assocFind_setV_ne _ _ hne]

theorem phaseB_fst_nodup (cid : ℕ) :
    ∀ (rows : List ScoredRow) (H : History),
      (rows.map ScoredRow.handle).Nodup →
      (phaseB cid rows H).1 = rows.map (fun r =>
        applyStreak r (streakAt (sortStable entryLe ((assocFind r.handle H).getD [])) cid)) := by
  intro rows
  induction rows with
  | nil => intro H _; rfl
  | cons r0 rest ih =>
    intro H hnd
    simp only [List.map_cons, List.nodup_cons] at hnd
    simp only [phaseB, List.map_cons, List.cons.injEq]
    refine ⟨trivial, ?_⟩
    rw [ih _ hnd.2]
    refine List.map_congr_left ?_
    intro r hr
    have hne : r.handle ≠ r0.handle := by
      intro hEq
      exact hnd.1 (hEq ▸ List.mem_map_of_mem ScoredRow.handle hr)
    rw [assocFind_setV_ne _ _ hne]

theorem phaseB_id (cid : ℕ) :
    ∀ (rows : List ScoredRow) (H : History),
      (∀ r ∈ rows, ∃ l, assocFind r.handle H = some l ∧ sortStable entryLe l = l) →
      phaseB cid rows H = (rows.map (fun r =>
        applyStreak r (streakAt ((assocFind r.handle H).getD []) cid)), H) := by
  intro rows
  induction rows with
  | nil => intro H _; rfl
  | cons r0 rest ih =>
    intro H hall
    obtain ⟨l, hfind, hsort⟩ := hall r0 (List.mem_cons_self r0 rest)
    have hsorted : sortStable entryLe ((assocFind r0.handle H).getD []) = l := by
      rw [hfind, Option.getD_some, hsort]
    have hset : assocSetV r0.handle
        (sortStable entryLe ((assocFind r0.handle H).getD [])) H = H := by
      rw [hsorted]
      exact assocSetV_id hfind
    simp only [phaseB, hset, List.map_cons]
    rw [ih H (fun r hr => hall r (List.mem_cons_of_mem r0 hr))]
    simp [hsorted, hfind, hsort]

theorem phaseD_find (cid : ℕ) (parts : List String) :
    ∀ (H : History) (h : String),
      assocFind h (phaseD cid parts H) = (assocFind h H).map (fun l =>
        if h ∉ parts ∧ countCid cid l = 0 then l ++ [⟨cid, 0, none⟩] else l) := by
  intro H
  induction H with
  | nil => intro h; rfl
  | cons p ps ih =>
    intro h
    by_cases hp : p.1 = h
    · subst hp
      by_cases hcond : p.1 ∉ parts ∧ countCid cid p.2 = 0
      · simp [phaseD, assocFind, hcond]
      · simp [phaseD, assocFind, hcond]
    · by_cases hcond : p.1 ∉ parts ∧ countCid cid p.2 = 0
      · simp only [phaseD, List.map_cons, if_pos hcond, assocFind, hp, if_neg hp]
        simpa [phaseD] using ih h
      · simp only [phaseD, List.map_cons, if_neg hcond, assocFind, hp, if_neg hp]
        simpa [phaseD] using ih h

theorem phaseD_post (cid : ℕ) (parts : List String) (H : History) :
    ∀ p ∈ phaseD cid parts H, p.1 ∈ parts ∨ countCid cid p.2 ≠ 0 := by
  intro p hp
  simp only [phaseD, List.mem_map] at hp
  obtain ⟨q, hq, rfl⟩ := hp
  by_cases hc : q.1 ∉ parts ∧ countCid cid q.2 = 0
  · rw [if_pos hc]
    right
    simp [countCid_append, countCid]
  · rw [if_neg hc]
    push_neg at hc
    by_cases hm : q.1 ∈ parts
    · exact Or.inl hm
    · exact Or.inr (hc hm)

theorem phaseD_id (cid : ℕ) (parts : List String) :
    ∀ (H : History), (∀ p ∈ H, p.1 ∈ parts ∨ countCid cid p.2 ≠ 0) →
      phaseD cid parts H = H := by
  intro H
  induction H with
  | nil => intro _; rfl
  | cons p ps ih =>
    intro hall
    have hp := hall p (List.mem_cons_self p ps)
    have hc : ¬(p.1 ∉ parts ∧ countCid cid p.2 = 0) := by tauto
    simp only [phaseD, List.map_cons, if_neg hc, List.cons.injEq]
    exact ⟨trivial, ih (fun q hq => hall q (List.mem_cons_of_mem p hq))⟩

/-! ## Re-ranking helper lemmas -/

theorem assignRanks_length :
    ∀ (l : List ScoredRow) (idx cur : ℕ) (ls lp : ℚ),
      (assignRanks l idx cur ls lp).length = l.length := by
  intro l
  induction l with
  | nil => intro idx cur ls lp; rfl
  | cons r rest ih =>
    intro idx cur ls lp
    by_cases h : r.customScore = ls ∧ r.penalty = lp
    · simp [assignRanks, if_pos h, ih]
    · simp [assignRanks, if_neg h, ih]

theorem assignRanks_map_key :
    ∀ (l : List ScoredRow) (idx cur : ℕ) (ls lp : ℚ),
      (assignRanks l idx cur ls lp).map scoreKey = l.map scoreKey := by
  intro l
  induction l with
  | nil => intro idx cur ls lp; rfl
  | cons r rest ih =>
    intro idx cur ls lp
    by_cases h : r.customScore = ls ∧ r.penalty = lp
    · simp [assignRanks, if_pos h, ih, scoreKey]
    · simp [assignRanks, if_neg h, ih, scoreKey]

theorem assignRanks_map_streak :
    ∀ (l : List ScoredRow) (idx cur : ℕ) (ls lp : ℚ),
      (assignRanks l idx cur ls lp).map ScoredRow.streak = l.map ScoredRow.streak := by
  intro l
  induction l with
  | nil => intro idx cur ls lp; rfl
  | cons r rest ih =>
    intro idx cur ls lp
    by_cases h : r.customScore = ls ∧ r.penalty = lp
    · simp [assignRanks, if_pos h, ih]
    · simp [assignRanks, if_neg h, ih]

theorem assignRanks_mem :
    ∀ (l : List ScoredRow) (idx cur : ℕ) (ls lp : ℚ) (r : ScoredRow),
      r ∈ assignRanks l idx cur ls lp → ∃ r₀ ∈ l, ∃ n, r = { r₀ with rank := n } := by
  intro l
  induction l with
  | nil =>
    intro idx cur ls lp r hr
    simp [assignRanks] at hr
  | cons r0 rest ih =>
    intro idx cur ls lp r hr
    by_cases h : r0.customScore = ls ∧ r0.penalty = lp
    · rw [assignRanks, if_pos h] at hr
      rcases List.mem_cons.mp hr with rfl | hr
      · exact ⟨r0, List.mem_cons_self r0 rest, cur, rfl⟩
      · obtain ⟨r₀, hm, n, hn⟩ := ih _ _ _ _ r hr
        exact ⟨r₀, List.mem_cons_of_mem r0 hm, n, hn⟩
    · rw [assignRanks, if_neg h] at hr
      rcases List.mem_cons.mp hr with rfl | hr
      · exact ⟨r0, List.mem_cons_self r0 rest, idx + 1, rfl⟩
      · obtain ⟨r₀, hm, n, hn⟩ := ih _ _ _ _ r hr
        exact ⟨r₀, List.mem_cons_of_mem r0 hm, n, hn⟩

theorem phaseB_mem (cid : ℕ) :
    ∀ (rows : List ScoredRow) (H : History) (r : ScoredRow),
      r ∈ (phaseB cid rows H).1 → ∃ r₀ s, r = applyStreak r₀ s := by
  intro rows
  induction rows with
  | nil =>
    intro H r hr
    simp [phaseB] at hr
  | cons r0 rest ih =>
    intro H r hr
    simp only [phaseB, List.mem_cons] at hr
    rcases hr with rfl | hr
    · exact ⟨r0, _, rfl⟩
    · exact ih _ r hr

/-! ## C5: the streak multiplier -/

/-- C5.  The streak multiplier is a pure step function of the streak
length (`0,1 ↦ 1`, `2 ↦ 1.05`, `3 ↦ 1.10`, `≥4 ↦ 1.15`), monotonically
non-decreasing, and every row the scoring engine returns satisfies
`customScore = rawScore * multiplier` and
`streakBonus = rawScore * (multiplier - 1)`. -/
theorem c5_theorem :
    (streakMultiplier 0 = 1 ∧ streakMultiplier 1 = 1 ∧
     streakMultiplier 2 = 21/20 ∧ streakMultiplier 3 = 11/10 ∧
     ∀ s, 4 ≤ s → streakMultiplier s = 23/20) ∧
    Monotone streakMultiplier ∧
    ∀ (sd : StandingsData) (cid : ℕ) (H : History) (rows : List ScoredRow),
      (calculateScoresAndStreaks sd cid H).1.rows = some rows →
      ∀ r ∈ rows, r.customScore = r.rawScore * streakMultiplier r.streak ∧
        r.streakBonus = r.rawScore * (streakMultiplier r.streak - 1) := by
  refine ⟨⟨by norm_num [streakMultiplier], by norm_num [streakMultiplier],
    by norm_num [streakMultiplier], by norm_num [streakMultiplier], ?_⟩, ?_, ?_⟩
  · intro s hs
    simp [streakMultiplier, hs]
  · intro a b hab
    simp only [streakMultiplier]
    split_ifs <;> try norm_num
    all_goals omega
  · intro sd cid H rows hrows r hr
    cases hsd : sd.rows with
    | none => simp [calculateScoresAndStreaks, hsd] at hrows
    | some rs =>
      simp only [calculateScoresAndStreaks, hsd] at hrows
      obtain rfl : rerank (phaseB cid (phaseA cid (faOf sd.problems rs) rs H).1
          (phaseA cid (faOf sd.problems rs) rs H).2).1 = rows := by
        exact Option.some.injEq _ _ ▸ (by simpa using hrows)
      obtain ⟨r₀, hr₀, n, rfl⟩ := assignRanks_mem _ _ _ _ _ r hr
      have hr₀' : r₀ ∈ (phaseB cid (phaseA cid (faOf sd.problems rs) rs H).1
          (phaseA cid (faOf sd.problems rs) rs H).2).1 :=
        (sortStable_perm rowLe _).mem_iff.mp hr₀
      obtain ⟨r₁, s, rfl⟩ := phaseB_mem cid _ _ r₀ hr₀'
      simp [applyStreak]

/-- C5 witness: the scoring engine applied to a singleton contest, checked
at the concrete returned row. -/
theorem c5_witness :
    ((calculateScoresAndStreaks ⟨⟨3, "x"⟩, some [], some [⟨"a", 1, 10, 0, []⟩]⟩ 3 []).1.rows =
      some [⟨"a", 1, 10, 0, [], 30, 0, 30, 30, 1, 0⟩]) ∧
    ((⟨"a", 1, 10, 0, [], 30, 0, 30, 30, 1, 0⟩ : ScoredRow).customScore =
        (⟨"a", 1, 10, 0, [], 30, 0, 30, 30, 1, 0⟩ : ScoredRow).rawScore *
          streakMultiplier (⟨"a", 1, 10, 0, [], 30, 0, 30, 30, 1, 0⟩ : ScoredRow).streak ∧
     (⟨"a", 1, 10, 0, [], 30, 0, 30, 30, 1, 0⟩ : ScoredRow).streakBonus =
        (⟨"a", 1, 10, 0, [], 30, 0, 30, 30, 1, 0⟩ : ScoredRow).rawScore *
          (streakMultiplier (⟨"a", 1, 10, 0, [], 30, 0, 30, 30, 1, 0⟩ : ScoredRow).streak - 1)) :=
  ⟨by with_unfolding_all decide,
   c5_theorem.2.2 ⟨⟨3, "x"⟩, some [], some [⟨"a", 1, 10, 0, []⟩]⟩ 3 []
     [⟨"a", 1, 10, 0, [], 30, 0, 30, 30, 1, 0⟩] (by with_unfolding_all decide)
     ⟨"a", 1, 10, 0, [], 30, 0, 30, 30, 1, 0⟩ (by decide)⟩

/-! ## C8: degenerate standings data -/

/-- C8 counterexample.  With rows present but empty, the engine is not a
history no-op: the handle `a`, absent from the (empty) row set and lacking
an entry for contest `2`, gets a zero entry appended, so the supplied
history instance changes. -/
theorem c8_counterexample :
    (calculateScoresAndStreaks ⟨⟨2, "y"⟩, some [], some []⟩ 2
        [("a", [⟨1, 5, some 1⟩])]).2 ≠ [("a", [⟨1, 5, some 1⟩])] := by
  with_unfolding_all decide

/-- C8 amended.  Missing rows short-circuit to a full no-op (input passed
through, history untouched).  An empty rows list passes the empty rows
through and computes no scores, but the absent-participant pass still
appends a zero-score, null-rank entry for this contest to every handle in
history lacking one. -/
theorem c8_theorem (sd : StandingsData) (cid : ℕ) (H : History) :
    (sd.rows = none →
      calculateScoresAndStreaks sd cid H = (⟨sd.contest, sd.problems, none⟩, H)) ∧
    (sd.rows = some [] →
      (calculateScoresAndStreaks sd cid H).1 = ⟨sd.contest, sd.problems, some []⟩ ∧
      (calculateScoresAndStreaks sd cid H).2 = H.map (fun p =>
        if countCid cid p.2 = 0 then (p.1, p.2 ++ [⟨cid, 0, none⟩]) else p)) := by
  constructor
  · intro h
    simp [calculateScoresAndStreaks, h]
  · intro h
    simp only [calculateScoresAndStreaks, h]
    exact ⟨rfl, by simp [phaseA, phaseB, phaseD]⟩

/-- C8 witness: both amended branches at concrete inputs. -/
theorem c8_witness :
    (calculateScoresAndStreaks ⟨⟨2, "y"⟩, some [], none⟩ 2 [("a", [⟨1, 5, some 1⟩])] =
      (⟨⟨2, "y"⟩, some [], none⟩, [("a", [⟨1, 5, some 1⟩])])) ∧
    ((calculateScoresAndStreaks ⟨⟨2, "y"⟩, some [], some []⟩ 2
        [("a", [⟨1, 5, some 1⟩])]).1 = ⟨⟨2, "y"⟩, some [], some []⟩ ∧
     (calculateScoresAndStreaks ⟨⟨2, "y"⟩, some [], some []⟩ 2
        [("a", [⟨1, 5, some 1⟩])]).2 = [("a", [⟨1, 5, some 1⟩])].map (fun p =>
          if countCid 2 p.2 = 0 then (p.1, p.2 ++ [⟨2, 0, none⟩]) else p)) :=
  ⟨(c8_theorem ⟨⟨2, "y"⟩, some [], none⟩ 2 [("a", [⟨1, 5, some 1⟩])]).1 rfl,
   (c8_theorem ⟨⟨2, "y"⟩, some [], some []⟩ 2 [("a", [⟨1, 5, some 1⟩])]).2 rfl⟩

/-! ## C1: streak at a contest following a zero -/

/-- C1 counterexample.  A handle with history `C1 = 1` positive and
`C2 = 2` zero, scored at `C3 = 3` with a positive raw score, shows streak
`1` at C3, not `0`: the backward walk counts C3's own positive entry
before stopping at C2's zero. -/
theorem c1_counterexample :
    ((((calculateScoresAndStreaks ⟨⟨3, "x"⟩, some [], some [⟨"a", 1, 10, 0, []⟩]⟩ 3
        [("a", [⟨1, 5, some 1⟩, ⟨2, 0, none⟩])]).1.rows.getD []).map ScoredRow.streak) = [1]) ∧
    ((((calculateScoresAndStreaks ⟨⟨3, "x"⟩, some [], some [⟨"a", 1, 10, 0, []⟩]⟩ 3
        [("a", [⟨1, 5, some 1⟩, ⟨2, 0, none⟩])]).1.rows.getD []).map ScoredRow.streak) ≠ [0]) := by
  with_unfolding_all decide

/-- C1 amended.  For a handle whose history holds exactly a positive-score
entry for `c1` and a zero-score entry for `c2`, with `c1 < c2 < c3`,
scoring contest `c3` with a positive raw score computes streak `1` at
`c3` (not `0`): the zero at `c2` cuts off `c1`'s run, while `c3`'s own
positive entry still counts. -/
theorem c1_theorem (c1 c2 c3 : ℕ) (nm : String) (probs : Option (List String))
    (s1 : ℚ) (r1 r2 : Option ℕ) (row : Row)
    (h12 : c1 < c2) (h23 : c2 < c3) (_hs1 : 0 < s1)
    (hraw : 0 < (scoreRow c3 (faOf probs [row]) row).rawScore) :
    (((calculateScoresAndStreaks ⟨⟨c3, nm⟩, probs, some [row]⟩ c3
        [(row.handle, [⟨c1, s1, r1⟩, ⟨c2, 0, r2⟩])]).1.rows.getD []).map
      ScoredRow.streak) = [1] := by
  have hne13 : c1 ≠ c3 := Nat.ne_of_lt (h12.trans h23)
  have hne23 : c2 ≠ c3 := Nat.ne_of_lt h23
  have hle12 : c1 ≤ c2 := le_of_lt h12
  have hle13 : c1 ≤ c3 := le_of_lt (h12.trans h23)
  have hle23 : c2 ≤ c3 := le_of_lt h23
  have hraw2 : 0 < (baseAndBonus c3 row (faOf probs [row])).1 +
      (baseAndBonus c3 row (faOf probs [row])).2 := by
    simpa [scoreRow] using hraw
  simp only [calculateScoresAndStreaks, Option.getD_some]
  rw [rerank, assignRanks_map_streak]
  simp only [phaseA, phaseB]
  simp [assocUpsert, upsertEntry, assocFind, scoreRow, hne13, hne23,
        sortStable, insertStable, entryLe, hle12, hle13, hle23,
        streakAt, findIdxCid, leadPos, applyStreak, lt_irrefl, hraw2]

/-- C1 witness: the amended streak claim at a concrete history and row. -/
theorem c1_witness :
    ((calculateScoresAndStreaks ⟨⟨3, "x"⟩, some [], some [⟨"a", 1, 10, 0, []⟩]⟩ 3
        [((⟨"a", 1, 10, 0, []⟩ : Row).handle, [⟨1, 5, some 1⟩, ⟨2, 0, none⟩])]).1.rows.getD
      []).map ScoredRow.streak = [1] :=
  c1_theorem 1 2 3 "x" (some []) 5 (some 1) none ⟨"a", 1, 10, 0, []⟩
    (by decide) (by decide) (by decide) (by with_unfolding_all decide)

/-! ## C9: the subscription hub -/

theorem hubInv_init : hubInv ⟨[], []⟩ := by
  refine ⟨List.nodup_nil, by simp, ?_⟩
  intro cid
  simp [assocFind]

theorem hubInv_subscribe (s : HubState) (ws cid : ℕ) (h : hubInv s) :
    hubInv (subscribe s ws cid) := by
  obtain ⟨hnd, hne, hiff⟩ := h
  refine ⟨?_, ?_, ?_⟩
  · exact assocUpsert_keys_nodup _ _ hnd
  · intro p hp
    rcases assocUpsert_mem hp with ⟨v, rfl, hv⟩ | hp
    · by_cases hin : ws ∈ v
      · simp only [if_pos hin]
        intro habs
        have hv0 : v = [] := habs
        rw [hv0] at hin
        simp at hin
      · simp [if_neg hin]
    · exact hne p hp
  · intro c
    by_cases hc : c = cid
    · subst hc
      constructor
      · intro _
        refine ⟨_, assocFind_upsert_self c [] _ s.rooms, ?_⟩
        by_cases hin : ws ∈ (assocFind c s.rooms).getD []
        · simp only [if_pos hin]
          intro habs
          rw [habs] at hin
          simp at hin
        · simp [if_neg hin]
      · intro _
        simp only [subscribe]
        by_cases hin : c ∈ s.intervals <;> simp [hin]
    · have hfind : assocFind c (subscribe s ws cid).rooms = assocFind c s.rooms :=
        assocFind_upsert_ne _ _ _ hc
      simp only [subscribe] at hfind ⊢
      rw [hfind]
      by_cases hin : cid ∈ s.intervals
      · simp only [if_pos hin]
        exact hiff c
      · simp only [if_neg hin, List.mem_append, List.mem_singleton]
        rw [← hiff c]
        simp [hc]

theorem hubInv_unsubscribe (s : HubState) (ws cid : ℕ) (h : hubInv s) :
    hubInv (unsubscribe s ws cid) := by
  obtain ⟨hnd, hne, hiff⟩ := h
  unfold unsubscribe
  cases hfind : assocFind cid s.rooms with
  | none => exact ⟨hnd, hne, hiff⟩
  | some l =>
    by_cases hrest : (l.filter (fun w => w ≠ ws)).isEmpty
    · simp only [if_pos hrest]
      refine ⟨?_, ?_, ?_⟩
      · exact ((eraseKey_sublist cid s.rooms).map Prod.fst).nodup hnd
      · intro p hp
        exact hne p ((eraseKey_sublist cid s.rooms).mem hp)
      · intro c
        by_cases hc : c = cid
        · subst hc
          simp only [List.mem_filter]
          constructor
          · rintro ⟨-, habs⟩
            simp at habs
          · rintro ⟨l', hl', -⟩
            rw [assocFind_eraseKey_self hnd] at hl'
            exact absurd hl' (by simp)
        · rw [assocFind_eraseKey_ne _ hc]
          simp only [List.mem_filter, decide_eq_true_eq]
          rw [← hiff c]
          simp [hc]
    · simp only [if_neg hrest]
      refine ⟨?_, ?_, ?_⟩
      · have hk : cid ∈ s.rooms.map Prod.fst := by
          by_contra habs
          rw [← assocFind_eq_none cid s.rooms] at habs
          rw [habs] at hfind
          cases hfind
        rw [assocSetV_keys_mem _ hk]
        exact hnd
      · have hrne : l.filter (fun w => w ≠ ws) ≠ [] := by
          intro habs
          rw [habs] at hrest
          simp at hrest
        intro p hp
        rcases assocSetV_mem hp with hq | hp
        · rw [hq]
          exact hrne
        · exact hne p hp
      · intro c
        by_cases hc : c = cid
        · subst hc
          rw [assocFind_setV_self]
          constructor
          · intro _
            refine ⟨_, rfl, ?_⟩
            intro habs
            rw [habs] at hrest
            simp at hrest
          · intro _
            rw [hiff c]
            exact ⟨l, hfind, fun habs => by simp [habs] at hrest⟩
        · rw [assocFind_setV_ne _ _ hc]
          exact hiff c

theorem hubInv_reachable {s : HubState} (h : HubReachable s) : hubInv s := by
  induction h with
  | init => exact hubInv_init
  | sub ws cid _ ih => exact hubInv_subscribe _ ws cid ih
  | unsub ws cid _ ih => exact hubInv_unsubscribe _ ws cid ih

/-- C9.  In every reachable hub state a poll timer exists for a contest id
exactly when that id has a non-empty listener set; and unsubscribing the
sole listener of a contest id removes both its listener set and its
timer. -/
theorem c9_theorem (s : HubState) (hs : HubReachable s) :
    (∀ cid, cid ∈ s.intervals ↔ ∃ l, assocFind cid s.rooms = some l ∧ l ≠ []) ∧
    (∀ ws cid, assocFind cid s.rooms = some [ws] →
      assocFind cid (unsubscribe s ws cid).rooms = none ∧
      cid ∉ (unsubscribe s ws cid).intervals) := by
  obtain ⟨hnd, hne, hiff⟩ := hubInv_reachable hs
  refine ⟨hiff, ?_⟩
  intro ws cid hfind
  have hempty : (([ws] : List ℕ).filter (fun w => w ≠ ws)).isEmpty := by simp
  simp only [unsubscribe, hfind, if_pos hempty]
  constructor
  · exact assocFind_eraseKey_self hnd
  · simp

/-- C9 witness: the invariant and last-listener cancellation after one
concrete subscribe step from the initial state. -/
theorem c9_witness :
    (∀ cid, cid ∈ (subscribe ⟨[], []⟩ 1 5).intervals ↔
      ∃ l, assocFind cid (subscribe ⟨[], []⟩ 1 5).rooms = some l ∧ l ≠ []) ∧
    (∀ ws cid, assocFind cid (subscribe ⟨[], []⟩ 1 5).rooms = some [ws] →
      assocFind cid (unsubscribe (subscribe ⟨[], []⟩ 1 5) ws cid).rooms = none ∧
      cid ∉ (unsubscribe (subscribe ⟨[], []⟩ 1 5) ws cid).intervals) :=
  c9_theorem (subscribe ⟨[], []⟩ 1 5) (HubReachable.sub 1 5 HubReachable.init)

/-! ## C4: re-ranking -/

theorem rowLe_iff (a b : ScoredRow) :
    rowLe a b = true ↔ keyOrd (scoreKey a) (scoreKey b) := by
  simp [rowLe, keyOrd, scoreKey, Bool.or_eq_true, Bool.and_eq_true, decide_eq_true_eq]

theorem assignRanks_get_zero (a : ScoredRow) (t : List ScoredRow) (idx cur : ℕ)
    (ls lp : ℚ) (h0 : 0 < (assignRanks (a :: t) idx cur ls lp).length) :
    scoreKey ((assignRanks (a :: t) idx cur ls lp).get ⟨0, h0⟩) = scoreKey a ∧
    ((a.customScore = ls ∧ a.penalty = lp) →
      ((assignRanks (a :: t) idx cur ls lp).get ⟨0, h0⟩).rank = cur) ∧
    (¬(a.customScore = ls ∧ a.penalty = lp) →
      ((assignRanks (a :: t) idx cur ls lp).get ⟨0, h0⟩).rank = idx + 1) := by
  by_cases ha : a.customScore = ls ∧ a.penalty = lp
  · simp [assignRanks, if_pos ha, scoreKey, ha]
  · simp [assignRanks, if_neg ha, scoreKey, ha]

theorem assignRanks_cons (r : ScoredRow) (rest : List ScoredRow) (idx cur : ℕ)
    (ls lp : ℚ) :
    assignRanks (r :: rest) idx cur ls lp =
      if r.customScore = ls ∧ r.penalty = lp then
        { r with rank := cur } :: assignRanks rest (idx + 1) cur ls lp
      else
        { r with rank := idx + 1 } ::
          assignRanks rest (idx + 1) (idx + 1) r.customScore r.penalty := rfl

theorem assignRanks_succ :
    ∀ (l : List ScoredRow) (idx cur : ℕ) (ls lp : ℚ) (i : ℕ)
      (h : i + 1 < (assignRanks l idx cur ls lp).length),
      (scoreKey ((assignRanks l idx cur ls lp).get ⟨i + 1, h⟩) =
          scoreKey ((assignRanks l idx cur ls lp).get ⟨i, Nat.lt_of_succ_lt h⟩) →
        ((assignRanks l idx cur ls lp).get ⟨i + 1, h⟩).rank =
          ((assignRanks l idx cur ls lp).get ⟨i, Nat.lt_of_succ_lt h⟩).rank) ∧
      (¬(scoreKey ((assignRanks l idx cur ls lp).get ⟨i + 1, h⟩) =
          scoreKey ((assignRanks l idx cur ls lp).get ⟨i, Nat.lt_of_succ_lt h⟩)) →
        ((assignRanks l idx cur ls lp).get ⟨i + 1, h⟩).rank = idx + i + 2) := by
  intro l
  induction l with
  | nil =>
    intro idx cur ls lp i h
    simp [assignRanks] at h
  | cons a t ih =>
    intro idx cur ls lp i h
    by_cases ha : a.customScore = ls ∧ a.penalty = lp
    · revert h
      rw [assignRanks_cons, if_pos ha]
      intro h
      cases i with
      | zero =>
        cases t with
        | nil => simp [assignRanks] at h
        | cons b t' =>
          by_cases hb : b.customScore = ls ∧ b.penalty = lp
          · revert h
            rw [assignRanks_cons, if_pos hb]
            intro h
            simp only [List.get_cons_succ, List.get_cons_zero]
            have hkey : scoreKey { b with rank := cur } = scoreKey { a with rank := cur } := by
              simp [scoreKey, hb.1, hb.2, ha.1, ha.2]
            exact ⟨fun _ => rfl, fun hne => absurd hkey hne⟩
          · revert h
            rw [assignRanks_cons, if_neg hb]
            intro h
            simp only [List.get_cons_succ, List.get_cons_zero]
            constructor
            · intro hkey
              exfalso
              apply hb
              simp only [scoreKey, Prod.mk.injEq] at hkey
              exact ⟨hkey.1.trans ha.1, hkey.2.trans ha.2⟩
            · intro _
              show idx + 1 + 1 = idx + 0 + 2
              omega
      | succ j =>
        have h' : j + 1 < (assignRanks t (idx + 1) cur ls lp).length := by
          simpa using h
        have hres := ih (idx + 1) cur ls lp j h'
        simp only [List.get_cons_succ]
        refine ⟨fun hkey => hres.1 hkey, fun hkey => ?_⟩
        rw [hres.2 hkey]
        omega
    · revert h
      rw [assignRanks_cons, if_neg ha]
      intro h
      cases i with
      | zero =>
        cases t with
        | nil => simp [assignRanks] at h
        | cons b t' =>
          by_cases hb : b.customScore = a.customScore ∧ b.penalty = a.penalty
          · revert h
            rw [assignRanks_cons, if_pos hb]
            intro h
            simp only [List.get_cons_succ, List.get_cons_zero]
            have hkey : scoreKey { b with rank := idx + 1 } =
                scoreKey { a with rank := idx + 1 } := by
              simp [scoreKey, hb.1, hb.2]
            exact ⟨fun _ => rfl, fun hne => absurd hkey hne⟩
          · revert h
            rw [assignRanks_cons, if_neg hb]
            intro h
            simp only [List.get_cons_succ, List.get_cons_zero]
            constructor
            · intro hkey
              exfalso
              apply hb
              simp only [scoreKey, Prod.mk.injEq] at hkey
              exact hkey
            · intro _
              show idx + 1 + 1 = idx + 0 + 2
              omega
      | succ j =>
        have h' : j + 1 <
            (assignRanks t (idx + 1) (idx + 1) a.customScore a.penalty).length := by
          simpa using h
        have hres := ih (idx + 1) (idx + 1) a.customScore a.penalty j h'
        simp only [List.get_cons_succ]
        refine ⟨fun hkey => hres.1 hkey, fun hkey => ?_⟩
        rw [hres.2 hkey]
        omega

/-- C4.  Re-ranking sorts the scored rows by `customScore` descending with
`penalty` ascending as tie-break, gives adjacent rows with equal
`(customScore, penalty)` equal ranks, gives a row distinct from its
predecessor rank `1 + number of preceding rows`, and gives the first row
rank 1 (rows are assumed to carry the non-negative custom scores the
scoring engine produces, so the `-1` sentinels never match). -/
theorem c4_theorem (rows : List ScoredRow)
    (hpos : ∀ r ∈ rows, 0 ≤ r.customScore) :
    List.Perm ((rerank rows).map scoreKey) (rows.map scoreKey) ∧
    (rerank rows).Pairwise (fun a b => keyOrd (scoreKey a) (scoreKey b)) ∧
    (∀ i (h : i + 1 < (rerank rows).length),
      (scoreKey ((rerank rows).get ⟨i + 1, h⟩) =
          scoreKey ((rerank rows).get ⟨i, Nat.lt_of_succ_lt h⟩) →
        ((rerank rows).get ⟨i + 1, h⟩).rank =
          ((rerank rows).get ⟨i, Nat.lt_of_succ_lt h⟩).rank) ∧
      (¬(scoreKey ((rerank rows).get ⟨i + 1, h⟩) =
          scoreKey ((rerank rows).get ⟨i, Nat.lt_of_succ_lt h⟩)) →
        ((rerank rows).get ⟨i + 1, h⟩).rank = i + 2)) ∧
    (∀ h0 : 0 < (rerank rows).length, ((rerank rows).get ⟨0, h0⟩).rank = 1) := by
  refine ⟨?_, ?_, ?_, ?_⟩
  · rw [rerank, assignRanks_map_key]
    exact (sortStable_perm rowLe rows).map scoreKey
  · have hpw := sortStable_pairwise rowLe rowLe_total rowLe_trans rows
    have hpw2 : (sortStable rowLe rows).Pairwise
        (fun a b => keyOrd (scoreKey a) (scoreKey b)) :=
      hpw.imp (fun hab => (rowLe_iff _ _).mp hab)
    have hmap : (rerank rows).map scoreKey = (sortStable rowLe rows).map scoreKey := by
      rw [rerank, assignRanks_map_key]
    have h1 := (List.pairwise_map.mpr hpw2 :
      ((sortStable rowLe rows).map scoreKey).Pairwise (fun p q => keyOrd p q))
    rw [← hmap] at h1
    exact List.pairwise_map.mp h1
  · intro i h
    have hres := assignRanks_succ (sortStable rowLe rows) 0 0 (-1) (-1) i h
    exact ⟨hres.1, fun hk => (hres.2 hk).trans (by omega)⟩
  · intro h0
    cases hs : sortStable rowLe rows with
    | nil =>
      rw [rerank, hs] at h0
      simp [assignRanks] at h0
    | cons a t =>
      have ha : a ∈ rows := by
        have : a ∈ sortStable rowLe rows := by
          rw [hs]
          exact List.mem_cons_self a t
        exact (sortStable_perm rowLe rows).mem_iff.mp this
      have hane : ¬(a.customScore = -1 ∧ a.penalty = -1) := by
        intro hcon
        have := hpos a ha
        rw [hcon.1] at this
        norm_num at this
      have hrw : rerank rows = assignRanks (a :: t) 0 0 (-1) (-1) := by
        rw [rerank, hs]
      revert h0
      rw [hrw]
      intro h0
      exact (assignRanks_get_zero a t 0 0 (-1) (-1) h0).2.2 hane

/-- C4 witness: the re-ranking claim at a concrete scored row set with a
tie on `(customScore, penalty)`. -/
theorem c4_witness :
    List.Perm ((rerank [⟨"r", 3, 0, 0, [], 0, 0, 0, 5, 0, 0⟩,
        ⟨"p", 1, 0, 0, [], 0, 0, 0, 10, 0, 0⟩,
        ⟨"q", 2, 0, 0, [], 0, 0, 0, 10, 0, 0⟩]).map scoreKey)
      ([⟨"r", 3, 0, 0, [], 0, 0, 0, 5, 0, 0⟩,
        ⟨"p", 1, 0, 0, [], 0, 0, 0, 10, 0, 0⟩,
        ⟨"q", 2, 0, 0, [], 0, 0, 0, 10, 0, 0⟩].map scoreKey) :=
  ( c4_theorem [⟨"r", 3, 0, 0, [], 0, 0, 0, 5, 0, 0⟩,
      ⟨"p", 1, 0, 0, [], 0, 0, 0, 10, 0, 0⟩,
      ⟨"q", 2, 0, 0, [], 0, 0, 0, 10, 0, 0⟩] (by decide)).1

/-! ## C10 and C3: the history entry a scoring pass stores -/

theorem assocFind_of_mem_nodup [DecidableEq κ] {l : List (κ × β)} {p : κ × β}
    (hnd : (l.map Prod.fst).Nodup) (hp : p ∈ l) : assocFind p.1 l = some p.2 := by
  induction l with
  | nil => simp at hp
  | cons q qs ih =>
    simp only [List.map_cons, List.nodup_cons] at hnd
    rcases List.mem_cons.mp hp with rfl | hp
    · simp [assocFind]
    · by_cases hq : q.1 = p.1
      · exfalso
        apply hnd.1
        rw [hq]
        exact List.mem_map_of_mem Prod.fst hp
      · simp only [assocFind, if_neg hq]
        exact ih hnd.2 hp

theorem scored_handles (cid : ℕ) (fa : ℕ → Option (String × ℕ)) (rows : List Row) :
    (rows.map (scoreRow cid fa)).map ScoredRow.handle = rows.map Row.handle := by
  rw [List.map_map]
  rfl

theorem calc_find_participant (sd : StandingsData) (cid : ℕ) (H : History)
    (rows : List Row) (row : Row) (hrows : sd.rows = some rows)
    (RN : (rows.map Row.handle).Nodup) (hrow : row ∈ rows) :
    assocFind row.handle (calculateScoresAndStreaks sd cid H).2 =
      some (sortStable entryLe (upsertEntry cid
        (scoreRow cid (faOf sd.problems rows) row).rawScore row.rank
        ((assocFind row.handle H).getD []))) := by
  simp only [calculateScoresAndStreaks, hrows]
  rw [phaseD_find]
  have hBnd : (((phaseA cid (faOf sd.problems rows) rows H).1).map ScoredRow.handle).Nodup := by
    rw [phaseA_fst, scored_handles]
    exact RN
  have hmemB : scoreRow cid (faOf sd.problems rows) row ∈
      (phaseA cid (faOf sd.problems rows) rows H).1 := by
    rw [phaseA_fst]
    exact List.mem_map_of_mem _ hrow
  have hB := phaseB_find_mem cid (phaseA cid (faOf sd.problems rows) rows H).1
    (phaseA cid (faOf sd.problems rows) rows H).2
    (scoreRow cid (faOf sd.problems rows) row) hBnd hmemB
  have hA := phaseA_find_mem cid (faOf sd.problems rows) rows H row RN hrow
  have hhandle : (scoreRow cid (faOf sd.problems rows) row).handle = row.handle := rfl
  rw [hhandle] at hB
  rw [hB, hA]
  have hparts : row.handle ∈ rows.map Row.handle := List.mem_map_of_mem Row.handle hrow
  simp [hparts]

theorem countCid_of_hist {cid : ℕ} {H : History} {h : String}
    (hcnt : ∀ p ∈ H, countCid cid p.2 ≤ 1) :
    countCid cid ((assocFind h H).getD []) ≤ 1 := by
  cases hf : assocFind h H with
  | none => simp [countCid]
  | some l => exact hcnt (h, l) (assocFind_some_mem hf)

theorem entriesFor_sortStable (cid : ℕ) (l : List HistoryEntry) :
    List.Perm (entriesFor cid (sortStable entryLe l)) (entriesFor cid l) :=
  (sortStable_perm entryLe l).filter _

/-- C10.  The history entry stored by a scoring pass for a participant
carries the row's original upstream rank (`some row.rank`) and its raw
score; re-ranking happens after the upsert and only rewrites the returned
row copies, so the recomputed custom rank never reaches the history. -/
theorem c10_theorem (sd : StandingsData) (cid : ℕ) (H : History)
    (rows : List Row) (row : Row) (hrows : sd.rows = some rows) (hrow : row ∈ rows)
    (RN : (rows.map Row.handle).Nodup)
    (hcnt : ∀ p ∈ H, countCid cid p.2 ≤ 1) :
    entriesFor cid ((assocFind row.handle (calculateScoresAndStreaks sd cid H).2).getD []) =
      [⟨cid, (scoreRow cid (faOf sd.problems rows) row).rawScore, some row.rank⟩] := by
  rw [calc_find_participant sd cid H rows row hrows RN hrow, Option.getD_some]
  have hup := upsertEntry_entriesFor (l := (assocFind row.handle H).getD [])
    (scoreRow cid (faOf sd.problems rows) row).rawScore row.rank (countCid_of_hist hcnt)
  have hperm := entriesFor_sortStable cid (upsertEntry cid
    (scoreRow cid (faOf sd.problems rows) row).rawScore row.rank
    ((assocFind row.handle H).getD []))
  rw [hup] at hperm
  exact List.perm_singleton.mp hperm

/-- C10 witness: a row with upstream rank 5 (re-ranked to 1 in the output)
whose stored history entry keeps rank 5. -/
theorem c10_witness :
    entriesFor 3 ((assocFind (⟨"a", 5, 10, 0, []⟩ : Row).handle
      (calculateScoresAndStreaks ⟨⟨3, "x"⟩, some [], some [⟨"a", 5, 10, 0, []⟩]⟩ 3 []).2).getD
        []) =
      [⟨3, (scoreRow 3 (faOf (some []) [⟨"a", 5, 10, 0, []⟩]) ⟨"a", 5, 10, 0, []⟩).rawScore,
        some (⟨"a", 5, 10, 0, []⟩ : Row).rank⟩] :=
  c10_theorem ⟨⟨3, "x"⟩, some [], some [⟨"a", 5, 10, 0, []⟩]⟩ 3 [] [⟨"a", 5, 10, 0, []⟩]
    ⟨"a", 5, 10, 0, []⟩ rfl (by decide) (by decide) (by simp)

/-- C3 counterexample.  The handle `alice` is in history with an entry for
contest `7` (score 5), is absent from the contest's rows, and after the
scoring pass still has exactly that entry: its score is 5, not 0, because
the absent-participant pass only appends when no entry for the contest id
exists. -/
theorem c3_counterexample :
    assocFind "alice" (calculateScoresAndStreaks
        ⟨⟨7, "z"⟩, some [], some [⟨"bob", 1, 3, 0, []⟩]⟩ 7
        [("alice", [⟨7, 5, some 1⟩])]).2 = some [⟨7, 5, some 1⟩] ∧ (5 : ℚ) ≠ 0 := by
  with_unfolding_all decide

/-- C3 amended.  Over a history whose per-handle entry lists hold at most
one entry for the contest id: every handle in the rows ends with exactly
one entry for this contest (idempotent upsert); every handle in history
absent from the rows also ends with exactly one entry for this contest,
which is the appended zero-score, null-rank entry when the handle had no
entry for this contest, and its untouched pre-existing history otherwise. -/
theorem c3_theorem (sd : StandingsData) (cid : ℕ) (H : History)
    (rows : List Row) (hrows : sd.rows = some rows)
    (RN : (rows.map Row.handle).Nodup) (HN : (H.map Prod.fst).Nodup)
    (hcnt : ∀ p ∈ H, countCid cid p.2 ≤ 1) :
    (∀ row ∈ rows,
      countCid cid ((assocFind row.handle (calculateScoresAndStreaks sd cid H).2).getD []) = 1) ∧
    (∀ p ∈ H, p.1 ∉ rows.map Row.handle →
      countCid cid ((assocFind p.1 (calculateScoresAndStreaks sd cid H).2).getD []) = 1 ∧
      (countCid cid p.2 = 0 →
        assocFind p.1 (calculateScoresAndStreaks sd cid H).2 =
          some (p.2 ++ [⟨cid, 0, none⟩])) ∧
      (countCid cid p.2 ≠ 0 →
        assocFind p.1 (calculateScoresAndStreaks sd cid H).2 = some p.2)) := by
  constructor
  · intro row hrow
    rw [calc_find_participant sd cid H rows row hrows RN hrow, Option.getD_some,
      countCid_entriesFor]
    have hup := upsertEntry_entriesFor (l := (assocFind row.handle H).getD [])
      (scoreRow cid (faOf sd.problems rows) row).rawScore row.rank (countCid_of_hist hcnt)
    have hperm := entriesFor_sortStable cid (upsertEntry cid
      (scoreRow cid (faOf sd.problems rows) row).rawScore row.rank
      ((assocFind row.handle H).getD []))
    rw [hup] at hperm
    rw [List.perm_singleton.mp hperm]
    rfl
  · intro p hp hnp
    have hfind0 : assocFind p.1 H = some p.2 := assocFind_of_mem_nodup HN hp
    have hcuntouched : assocFind p.1
        (phaseB cid (phaseA cid (faOf sd.problems rows) rows H).1
          (phaseA cid (faOf sd.problems rows) rows H).2).2 = some p.2 := by
      rw [phaseB_find_ne, phaseA_find_ne]
      · exact hfind0
      · exact hnp
      · rw [phaseA_fst, scored_handles]
        exact hnp
    have hfinal : assocFind p.1 (calculateScoresAndStreaks sd cid H).2 =
        some (if p.1 ∉ rows.map Row.handle ∧ countCid cid p.2 = 0 then
          p.2 ++ [⟨cid, 0, none⟩] else p.2) := by
      simp only [calculateScoresAndStreaks, hrows]
      rw [phaseD_find, hcuntouched]
      rfl
    by_cases h0 : countCid cid p.2 = 0
    · rw [hfinal, if_pos ⟨hnp, h0⟩]
      refine ⟨?_, fun _ => rfl, fun hne => absurd h0 hne⟩
      simp [countCid_append, h0, countCid]
    · rw [hfinal, if_neg (fun hcon => h0 hcon.2)]
      refine ⟨?_, fun habs => absurd habs h0, fun _ => rfl⟩
      have := hcnt p hp
      simp only [Option.getD_some]
      omega

/-- C3 witness: a participant (`bob`) gets exactly one entry, and a
history-only handle without an entry (`alice`) gets the zero entry
appended. -/
theorem c3_witness :
    countCid 3 ((assocFind (⟨"bob", 1, 3, 0, []⟩ : Row).handle
      (calculateScoresAndStreaks ⟨⟨3, "x"⟩, some [], some [⟨"bob", 1, 3, 0, []⟩]⟩ 3
        [("alice", [⟨1, 5, some 1⟩])]).2).getD []) = 1 ∧
    assocFind ("alice", [(⟨1, 5, some 1⟩ : HistoryEntry)]).1
      (calculateScoresAndStreaks ⟨⟨3, "x"⟩, some [], some [⟨"bob", 1, 3, 0, []⟩]⟩ 3
        [("alice", [⟨1, 5, some 1⟩])]).2 =
      some ([⟨1, 5, some 1⟩] ++ [⟨3, 0, none⟩]) :=
  ⟨(c3_theorem ⟨⟨3, "x"⟩, some [], some [⟨"bob", 1, 3, 0, []⟩]⟩ 3
      [("alice", [⟨1, 5, some 1⟩])] [⟨"bob", 1, 3, 0, []⟩] rfl (by decide) (by decide)
      (by decide)).1 ⟨"bob", 1, 3, 0, []⟩ (by decide),
   ((c3_theorem ⟨⟨3, "x"⟩, some [], some [⟨"bob", 1, 3, 0, []⟩]⟩ 3
      [("alice", [⟨1, 5, some 1⟩])] [⟨"bob", 1, 3, 0, []⟩] rfl (by decide) (by decide)
      (by decide)).2 ("alice", [⟨1, 5, some 1⟩]) (by decide) (by decide)).2.1 (by decide)⟩

/-! ## C6: idempotence of a repeated scoring pass -/

theorem countCid_le_one_of_nodup {cid : ℕ} {l : List HistoryEntry}
    (h : (l.map HistoryEntry.contestId).Nodup) : countCid cid l ≤ 1 := by
  induction l with
  | nil => simp [countCid]
  | cons e rest ih =>
    simp only [List.map_cons, List.nodup_cons] at h
    by_cases he : e.contestId = cid
    · have h0 : countCid cid rest = 0 := by
        by_contra habs
        have := (countCid_pos_iff cid rest).mp (Nat.pos_of_ne_zero habs)
        rw [he] at h
        exact h.1 this
      simp [countCid, he, h0]
    · simp only [countCid, if_neg he, Nat.zero_add]
      exact ih h.2

theorem phaseA_nodupC (cid : ℕ) (fa : ℕ → Option (String × ℕ)) :
    ∀ (rows : List Row) (H : History), histNodupC H → histNodupC (phaseA cid fa rows H).2 := by
  intro rows
  induction rows with
  | nil => intro H h; exact h
  | cons row rest ih =>
    intro H h
    simp only [phaseA]
    apply ih
    intro q hq
    rcases assocUpsert_mem hq with ⟨v, rfl, hv⟩ | hq
    · rcases hv with rfl | hv
      · exact upsertEntry_nodupC _ _ (by simp)
      · exact upsertEntry_nodupC _ _ (h (row.handle, v) hv)
    · exact h q hq

theorem phaseB_nodupC (cid : ℕ) :
    ∀ (rows : List ScoredRow) (H : History), histNodupC H → histNodupC (phaseB cid rows H).2 := by
  intro rows
  induction rows with
  | nil => intro H h; exact h
  | cons r rest ih =>
    intro H h
    simp only [phaseB]
    apply ih
    intro q hq
    rcases assocSetV_mem hq with rfl | hq
    · have hval : ((assocFind r.handle H).getD []).map HistoryEntry.contestId |>.Nodup := by
        cases hf : assocFind r.handle H with
        | none => simp
        | some l => exact h (r.handle, l) (assocFind_some_mem hf)
      have hperm := (sortStable_perm entryLe ((assocFind r.handle H).getD [])).map
        HistoryEntry.contestId
      exact (hperm.nodup_iff).mpr hval
    · exact h q hq

theorem phaseD_nodupC (cid : ℕ) (parts : List String) (H : History)
    (h : histNodupC H) : histNodupC (phaseD cid parts H) := by
  intro q hq
  simp only [phaseD, List.mem_map] at hq
  obtain ⟨p, hp, rfl⟩ := hq
  by_cases hc : p.1 ∉ parts ∧ countCid cid p.2 = 0
  · rw [if_pos hc]
    have hnotin : cid ∉ p.2.map HistoryEntry.contestId := by
      rw [← countCid_pos_iff]
      omega
    simp [List.nodup_append, h p hp, hnotin]
  · rw [if_neg hc]
    exact h p hp

theorem calc_nodupC (sd : StandingsData) (cid : ℕ) (H : History)
    (h : histNodupC H) : histNodupC (calculateScoresAndStreaks sd cid H).2 := by
  cases hrows : sd.rows with
  | none => simpa [calculateScoresAndStreaks, hrows] using h
  | some rows =>
    simp only [calculateScoresAndStreaks, hrows]
    exact phaseD_nodupC _ _ _ (phaseB_nodupC _ _ _ (phaseA_nodupC _ _ _ _ h))

/-- C6.  Running the scoring engine a second time for the same contest on
the same raw standings with the history produced by the first run returns
exactly the first run's output and leaves the history unchanged, and that
history still has at most one entry per contest identifier for every
handle (stated as: each handle's entry list has pairwise-distinct contest
ids).  Hypotheses: entry lists start duplicate-free, and row handles are
unique within the contest (the spec's data-model invariant). -/
theorem c6_theorem (sd : StandingsData) (cid : ℕ) (H : History)
    (HC : histNodupC H)
    (RN : ∀ rows, sd.rows = some rows → (rows.map Row.handle).Nodup) :
    calculateScoresAndStreaks sd cid (calculateScoresAndStreaks sd cid H).2 =
      calculateScoresAndStreaks sd cid H ∧
    histNodupC (calculateScoresAndStreaks sd cid H).2 := by
  refine ⟨?_, calc_nodupC sd cid H HC⟩
  cases hrows : sd.rows with
  | none => simp [calculateScoresAndStreaks, hrows]
  | some rows =>
    have RN' := RN rows hrows
    have hcnt : ∀ p ∈ H, countCid cid p.2 ≤ 1 :=
      fun p hp => countCid_le_one_of_nodup (HC p hp)
    have hfix : ∀ row ∈ rows,
        assocFind row.handle (calculateScoresAndStreaks sd cid H).2 =
          some (sortStable entryLe (upsertEntry cid
            (scoreRow cid (faOf sd.problems rows) row).rawScore row.rank
            ((assocFind row.handle H).getD []))) :=
      fun row hrow => calc_find_participant sd cid H rows row hrows RN' hrow
    have hEf : ∀ row ∈ rows,
        entriesFor cid (sortStable entryLe (upsertEntry cid
          (scoreRow cid (faOf sd.problems rows) row).rawScore row.rank
          ((assocFind row.handle H).getD []))) =
          [⟨cid, (scoreRow cid (faOf sd.problems rows) row).rawScore, some row.rank⟩] := by
      intro row hrow
      have hup := upsertEntry_entriesFor (l := (assocFind row.handle H).getD [])
        (scoreRow cid (faOf sd.problems rows) row).rawScore row.rank (countCid_of_hist hcnt)
      have hperm := entriesFor_sortStable cid (upsertEntry cid
        (scoreRow cid (faOf sd.problems rows) row).rawScore row.rank
        ((assocFind row.handle H).getD []))
      rw [hup] at hperm
      exact List.perm_singleton.mp hperm
    have hsortfix : ∀ (l : List HistoryEntry),
        sortStable entryLe (sortStable entryLe l) = sortStable entryLe l :=
      fun l => sortStable_eq_self entryLe
        (sortStable_pairwise entryLe entryLe_total entryLe_trans l)
    -- the second run's first pass leaves the history fixed
    have hA2 : (phaseA cid (faOf sd.problems rows) rows
        (calculateScoresAndStreaks sd cid H).2).2 = (calculateScoresAndStreaks sd cid H).2 := by
      apply phaseA_id
      intro row hrow
      refine ⟨_, hfix row hrow, ?_⟩
      exact upsertEntry_self (hEf row hrow)
    -- the second run's second pass leaves the history fixed
    have hBpre : ∀ r ∈ rows.map (scoreRow cid (faOf sd.problems rows)),
        ∃ l, assocFind r.handle (calculateScoresAndStreaks sd cid H).2 = some l ∧
          sortStable entryLe l = l := by
      intro r hr
      obtain ⟨row, hrow, rfl⟩ := List.mem_map.mp hr
      refine ⟨_, hfix row hrow, hsortfix _⟩
    have hB2 := phaseB_id cid (rows.map (scoreRow cid (faOf sd.problems rows)))
      (calculateScoresAndStreaks sd cid H).2 hBpre
    -- run 1's second-pass rows
    have hB1 : (phaseB cid (phaseA cid (faOf sd.problems rows) rows H).1
        (phaseA cid (faOf sd.problems rows) rows H).2).1 =
        (rows.map (scoreRow cid (faOf sd.problems rows))).map (fun r =>
          applyStreak r (streakAt (sortStable entryLe ((assocFind r.handle
            (phaseA cid (faOf sd.problems rows) rows H).2).getD [])) cid)) := by
      rw [phaseA_fst]
      apply phaseB_fst_nodup
      rw [scored_handles]
      exact RN'
    -- the two runs compute the same scored rows
    have hrowsB : (rows.map (scoreRow cid (faOf sd.problems rows))).map (fun r =>
        applyStreak r (streakAt ((assocFind r.handle
          (calculateScoresAndStreaks sd cid H).2).getD []) cid)) =
        (rows.map (scoreRow cid (faOf sd.problems rows))).map (fun r =>
          applyStreak r (streakAt (sortStable entryLe ((assocFind r.handle
            (phaseA cid (faOf sd.problems rows) rows H).2).getD [])) cid)) := by
      apply List.map_congr_left
      intro r hr
      obtain ⟨row, hrow, rfl⟩ := List.mem_map.mp hr
      have h1 : assocFind (scoreRow cid (faOf sd.problems rows) row).handle
          (calculateScoresAndStreaks sd cid H).2 =
          some (sortStable entryLe (upsertEntry cid
            (scoreRow cid (faOf sd.problems rows) row).rawScore row.rank
            ((assocFind row.handle H).getD []))) := hfix row hrow
      have h2 : assocFind (scoreRow cid (faOf sd.problems rows) row).handle
          (phaseA cid (faOf sd.problems rows) rows H).2 =
          some (upsertEntry cid
            (scoreRow cid (faOf sd.problems rows) row).rawScore row.rank
            ((assocFind row.handle H).getD [])) :=
        phaseA_find_mem cid (faOf sd.problems rows) rows H row RN' hrow
      rw [h1, h2, Option.getD_some, Option.getD_some]
    -- the second run's absent-participant pass is the identity
    have hD2 : phaseD cid (rows.map Row.handle) (calculateScoresAndStreaks sd cid H).2 =
        (calculateScoresAndStreaks sd cid H).2 := by
      apply phaseD_id
      intro p hp
      have hpost : ∀ q ∈ phaseD cid (rows.map Row.handle)
          (phaseB cid (phaseA cid (faOf sd.problems rows) rows H).1
            (phaseA cid (faOf sd.problems rows) rows H).2).2,
          q.1 ∈ rows.map Row.handle ∨ countCid cid q.2 ≠ 0 := phaseD_post cid _ _
      apply hpost
      have : (calculateScoresAndStreaks sd cid H).2 =
          phaseD cid (rows.map Row.handle)
            (phaseB cid (phaseA cid (faOf sd.problems rows) rows H).1
              (phaseA cid (faOf sd.problems rows) rows H).2).2 := by
        simp only [calculateScoresAndStreaks, hrows]
      rw [← this]
      exact hp
    -- assemble the two runs componentwise
    have hunf : ∀ K : History, calculateScoresAndStreaks sd cid K =
        (⟨sd.contest, sd.problems, some (rerank (phaseB cid
            (phaseA cid (faOf sd.problems rows) rows K).1
            (phaseA cid (faOf sd.problems rows) rows K).2).1)⟩,
         phaseD cid (rows.map Row.handle) (phaseB cid
            (phaseA cid (faOf sd.problems rows) rows K).1
            (phaseA cid (faOf sd.problems rows) rows K).2).2) := by
      intro K
      simp only [calculateScoresAndStreaks, hrows]
    have hsnd2 : (calculateScoresAndStreaks sd cid (calculateScoresAndStreaks sd cid H).2).2 =
        (calculateScoresAndStreaks sd cid H).2 := by
      have h2 := congrArg Prod.snd (hunf (calculateScoresAndStreaks sd cid H).2)
      rw [phaseA_fst, hA2, hB2] at h2
      simpa [hD2] using h2
    have hfst2 : (calculateScoresAndStreaks sd cid (calculateScoresAndStreaks sd cid H).2).1 =
        (calculateScoresAndStreaks sd cid H).1 := by
      have h1 := congrArg Prod.fst (hunf (calculateScoresAndStreaks sd cid H).2)
      rw [phaseA_fst, hA2, hB2] at h1
      have h1' := congrArg Prod.fst (hunf H)
      rw [hB1] at h1'
      dsimp only at h1 h1'
      rw [h1, h1', hrowsB]
    exact Prod.ext hfst2 hsnd2

/-- C6 witness: a second pass over a one-row contest with a pre-existing
history instance. -/
theorem c6_witness :
    calculateScoresAndStreaks ⟨⟨3, "x"⟩, some [], some [⟨"a", 1, 10, 0, []⟩]⟩ 3
        (calculateScoresAndStreaks ⟨⟨3, "x"⟩, some [], some [⟨"a", 1, 10, 0, []⟩]⟩ 3
          [("b", [⟨1, 5, some 2⟩])]).2 =
      calculateScoresAndStreaks ⟨⟨3, "x"⟩, some [], some [⟨"a", 1, 10, 0, []⟩]⟩ 3
        [("b", [⟨1, 5, some 2⟩])] ∧
    histNodupC (calculateScoresAndStreaks ⟨⟨3, "x"⟩, some [], some [⟨"a", 1, 10, 0, []⟩]⟩ 3
      [("b", [⟨1, 5, some 2⟩])]).2 :=
  c6_theorem ⟨⟨3, "x"⟩, some [], some [⟨"a", 1, 10, 0, []⟩]⟩ 3 [("b", [⟨1, 5, some 2⟩])]
    (by unfold histNodupC; decide)
    (by
      intro rows h
      injection h with h2
      subst h2
      decide)

/-! ## C7: aggregation error handling -/

theorem fetchAll_error (env : Env) :
    ∀ ids : List ℕ, (∃ i ∈ ids, ∃ e, getRawStandings env i = Except.error e) →
      ∃ msg, fetchAll env ids = Except.error msg ∧
        ∃ i ∈ ids, getRawStandings env i = Except.error msg := by
  intro ids
  induction ids with
  | nil =>
    rintro ⟨i, hi, -⟩
    simp at hi
  | cons j js ih =>
    rintro ⟨i, hi, e, he⟩
    cases hj : getRawStandings env j with
    | error e0 =>
      refine ⟨e0, ?_, j, List.mem_cons_self j js, hj⟩
      simp [fetchAll, hj]
    | ok d =>
      rcases List.mem_cons.mp hi with rfl | hi
      · rw [hj] at he
        cases he
      · obtain ⟨msg, hfa, k, hk, hke⟩ := ih ⟨i, hi, e, he⟩
        refine ⟨msg, ?_, k, List.mem_cons_of_mem j hk, hke⟩
        simp [fetchAll, hj, hfa]

/-- C7.  A missing `contestIds` parameter yields 400 with an explanatory
comment, and the response does not depend on the standings source (no
fetch is attempted).  If fetching fails for any requested id, the whole
request fails as 500 with `{status:"FAILED"}` whose comment is the error
message of a failing fetch — no partial leaderboard is returned.  For a
non-hardcoded contest id, a non-`OK` upstream response makes the fetch
fail with the upstream comment when available, else a generic message. -/
theorem c7_theorem (env : Env) :
    (multiContestStandings env none =
      (400, ApiResponse.failed "contestIds query parameter is required") ∧
     ∀ env' : Env, multiContestStandings env' none = multiContestStandings env none) ∧
    (∀ ids : List ℕ, (∃ i ∈ ids, ∃ e, getRawStandings env i = Except.error e) →
      ∃ msg, multiContestStandings env (some ids) = (500, ApiResponse.failed msg) ∧
        ∃ i ∈ ids, getRawStandings env i = Except.error msg) ∧
    (∀ i : ℕ, i ∉ [631207, 631208, 631209, 631210, 631211, 631212] →
      (env.remote i).status ≠ "OK" →
      getRawStandings env i = Except.error
        (((env.remote i).comment).getD
          ("Failed to fetch standings for contest " ++ toString i))) := by
  refine ⟨⟨rfl, fun _ => rfl⟩, ?_, ?_⟩
  · intro ids hfail
    obtain ⟨msg, hfa, i, hi, hie⟩ := fetchAll_error env ids hfail
    refine ⟨msg, ?_, i, hi, hie⟩
    simp [multiContestStandings, hfa]
  · intro i hi hstat
    simp only [List.mem_cons, List.mem_singleton] at hi
    push_neg at hi
    obtain ⟨h1, h2, h3, h4, h5, h6⟩ := hi
    simp [getRawStandings, h1, h2, h3, h4, h5, h6, hstat]

/-- C7 witness: a failing remote fetch for a non-hardcoded contest id
turns the whole aggregation request into a 500 with the upstream
comment. -/
theorem c7_witness :
    ∃ msg, multiContestStandings
        ⟨[], [], [], [], [], [], [], fun _ => ⟨"FAILED", ⟨⟨0, ""⟩, none, none⟩, some "boom"⟩⟩
        (some [1]) = (500, ApiResponse.failed msg) ∧
      ∃ i ∈ [1], getRawStandings
        ⟨[], [], [], [], [], [], [], fun _ => ⟨"FAILED", ⟨⟨0, ""⟩, none, none⟩, some "boom"⟩⟩
        i = Except.error msg :=
  (c7_theorem ⟨[], [], [], [], [], [], [],
      fun _ => ⟨"FAILED", ⟨⟨0, ""⟩, none, none⟩, some "boom"⟩⟩).2.1 [1]
    ⟨1, by decide, "boom", by rfl⟩

/-! ## C2: permutation invariance of the aggregation -/

theorem dataEquiv_refl (d : CumData) : dataEquiv d d := ⟨rfl, rfl, fun _ => rfl⟩

theorem optDataEquiv_refl (o : Option CumData) : optDataEquiv o o := by
  cases o
  · trivial
  · exact dataEquiv_refl _

theorem dataEquiv_trans {a b c : CumData} (h1 : dataEquiv a b) (h2 : dataEquiv b c) :
    dataEquiv a c :=
  ⟨h1.1.trans h2.1, h1.2.1.trans h2.2.1, fun cid => (h1.2.2 cid).trans (h2.2.2 cid)⟩

theorem optDataEquiv_trans :
    ∀ {a b c : Option CumData}, optDataEquiv a b → optDataEquiv b c → optDataEquiv a c
  | none, none, none, _, _ => trivial
  | some _, some _, some _, h1, h2 => dataEquiv_trans h1 h2
  | none, some _, _, h1, _ => h1.elim
  | some _, none, _, h1, _ => h1.elim
  | none, none, some _, _, h2 => h2.elim
  | some _, some _, none, _, h2 => h2.elim

theorem mapEquiv_refl (m : CumMap) : mapEquiv m m := fun _ => optDataEquiv_refl _

theorem mapEquiv_trans {m₁ m₂ m₃ : CumMap} (h1 : mapEquiv m₁ m₂) (h2 : mapEquiv m₂ m₃) :
    mapEquiv m₁ m₃ := fun h => optDataEquiv_trans (h1 h) (h2 h)

theorem addRow_eq (cid : ℕ) (m : CumMap) (r : ScoredRow) :
    addRow cid m r = assocUpsert r.handle ⟨0, 0, []⟩ (applyRowData cid r) m := rfl

theorem assocFind_addRow_self (cid : ℕ) (m : CumMap) (r : ScoredRow) :
    assocFind r.handle (addRow cid m r) =
      some (applyRowData cid r ((assocFind r.handle m).getD ⟨0, 0, []⟩)) := by
  rw [addRow_eq]
  exact assocFind_upsert_self _ _ _ _

theorem assocFind_addRow_ne (cid : ℕ) (m : CumMap) (r : ScoredRow) {h : String}
    (hne : h ≠ r.handle) : assocFind h (addRow cid m r) = assocFind h m := by
  rw [addRow_eq]
  exact assocFind_upsert_ne _ _ _ hne

theorem applyRowData_contests (cid : ℕ) (r : ScoredRow) (d : CumData) (c : ℕ) :
    assocFind c (applyRowData cid r d).contests =
      if c = cid then some (rowBreakdown r) else assocFind c d.contests := by
  by_cases hc : c = cid
  · subst hc
    simp [applyRowData, assocFind_setV_self]
  · simp [applyRowData, assocFind_setV_ne _ _ hc, hc]

theorem applyRowData_equiv (cid : ℕ) (r : ScoredRow) {d d' : CumData}
    (h : dataEquiv d d') : dataEquiv (applyRowData cid r d) (applyRowData cid r d') := by
  refine ⟨?_, ?_, ?_⟩
  · simp [applyRowData, h.1]
  · simp [applyRowData, h.2.1]
  · intro c
    rw [applyRowData_contests, applyRowData_contests]
    by_cases hc : c = cid
    · simp [hc]
    · simp [hc, h.2.2 c]

theorem addRow_equiv (cid : ℕ) (r : ScoredRow) {m m' : CumMap}
    (h : mapEquiv m m') : mapEquiv (addRow cid m r) (addRow cid m' r) := by
  intro x
  by_cases hx : x = r.handle
  · subst hx
    rw [assocFind_addRow_self, assocFind_addRow_self]
    have hh := h r.handle
    cases hm : assocFind r.handle m with
    | none =>
      cases hm' : assocFind r.handle m' with
      | none => exact applyRowData_equiv _ _ (dataEquiv_refl _)
      | some d' =>
        rw [hm, hm'] at hh
        exact hh.elim
    | some d =>
      cases hm' : assocFind r.handle m' with
      | none =>
        rw [hm, hm'] at hh
        exact hh.elim
      | some d' =>
        rw [hm, hm'] at hh
        simp only [Option.getD_some]
        exact applyRowData_equiv _ _ hh
  · rw [assocFind_addRow_ne _ _ _ hx, assocFind_addRow_ne _ _ _ hx]
    exact h x

theorem addContestRows_equiv (cid : ℕ) :
    ∀ (rows : List ScoredRow) {m m' : CumMap}, mapEquiv m m' →
      mapEquiv (addContestRows cid rows m) (addContestRows cid rows m') := by
  intro rows
  induction rows with
  | nil => intro m m' h; exact h
  | cons r rest ih =>
    intro m m' h
    simp only [addContestRows, List.foldl_cons]
    exact ih (addRow_equiv cid r h)

theorem stepAccum_equiv (processed : List (ℕ × ScoredStandings)) (cid : ℕ)
    {m m' : CumMap} (h : mapEquiv m m') :
    mapEquiv (stepAccum processed m cid) (stepAccum processed m' cid) := by
  unfold stepAccum
  cases assocFind cid processed with
  | none => exact h
  | some out => exact addContestRows_equiv cid _ h

theorem foldl_stepAccum_equiv (processed : List (ℕ × ScoredStandings)) :
    ∀ (ids : List ℕ) {m m' : CumMap}, mapEquiv m m' →
      mapEquiv (ids.foldl (stepAccum processed) m) (ids.foldl (stepAccum processed) m') := by
  intro ids
  induction ids with
  | nil => intro m m' h; exact h
  | cons c cs ih =>
    intro m m' h
    simp only [List.foldl_cons]
    exact ih (stepAccum_equiv processed c h)

theorem assocFind_addContestRows (cid : ℕ) (h : String) :
    ∀ (rows : List ScoredRow) (m : CumMap),
      assocFind h (addContestRows cid rows m) =
        if (rows.filter (fun r => decide (r.handle = h))).isEmpty then assocFind h m
        else some ((rows.filter (fun r => decide (r.handle = h))).foldl
          (fun d r => applyRowData cid r d) ((assocFind h m).getD ⟨0, 0, []⟩)) := by
  intro rows
  induction rows with
  | nil => intro m; simp [addContestRows]
  | cons r rest ih =>
    intro m
    have hstep : addContestRows cid (r :: rest) m = addContestRows cid rest (addRow cid m r) := by
      simp [addContestRows]
    rw [hstep, ih]
    by_cases hr : r.handle = h
    · have hfc : (r :: rest).filter (fun r => decide (r.handle = h)) =
          r :: rest.filter (fun r => decide (r.handle = h)) := by
        simp [List.filter_cons, hr]
      have hfind : assocFind h (addRow cid m r) =
          some (applyRowData cid r ((assocFind h m).getD ⟨0, 0, []⟩)) := by
        rw [← hr]
        exact assocFind_addRow_self cid m r
      rw [hfc]
      by_cases he : (rest.filter (fun r => decide (r.handle = h))).isEmpty
      · rw [if_pos he, hfind]
        have hne : ¬((r :: rest.filter (fun r => decide (r.handle = h))).isEmpty) := by simp
        rw [if_neg hne]
        have : rest.filter (fun r => decide (r.handle = h)) = [] := by
          simpa [List.isEmpty_iff] using he
        rw [this]
        rfl
      · rw [if_neg he, hfind]
        have hne : ¬((r :: rest.filter (fun r => decide (r.handle = h))).isEmpty) := by simp
        rw [if_neg hne]
        simp only [Option.getD_some, List.foldl_cons]
    · have hfc : (r :: rest).filter (fun r => decide (r.handle = h)) =
          rest.filter (fun r => decide (r.handle = h)) := by
        simp [List.filter_cons, hr]
      have hfind : assocFind h (addRow cid m r) = assocFind h m :=
        assocFind_addRow_ne cid m r (Ne.symm hr)
      rw [hfc, hfind]

theorem foldl_applyRowData_score (cid : ℕ) :
    ∀ (hr : List ScoredRow) (d : CumData),
      (hr.foldl (fun d r => applyRowData cid r d) d).score =
        d.score + (hr.map ScoredRow.customScore).sum := by
  intro hr
  induction hr with
  | nil => intro d; simp
  | cons r t ih =>
    intro d
    simp only [List.foldl_cons, List.map_cons, List.sum_cons]
    rw [ih]
    simp only [applyRowData]
    ring

theorem foldl_applyRowData_penalty (cid : ℕ) :
    ∀ (hr : List ScoredRow) (d : CumData),
      (hr.foldl (fun d r => applyRowData cid r d) d).penalty =
        d.penalty + (hr.map ScoredRow.penalty).sum := by
  intro hr
  induction hr with
  | nil => intro d; simp
  | cons r t ih =>
    intro d
    simp only [List.foldl_cons, List.map_cons, List.sum_cons]
    rw [ih]
    simp only [applyRowData]
    ring

theorem foldl_applyRowData_contests (cid c : ℕ) :
    ∀ (hr : List ScoredRow) (d : CumData) (lr : ScoredRow), hr.getLast? = some lr →
      assocFind c (hr.foldl (fun d r => applyRowData cid r d) d).contests =
        if c = cid then some (rowBreakdown lr) else assocFind c d.contests := by
  intro hr
  induction hr with
  | nil =>
    intro d lr hlr
    simp at hlr
  | cons r t ih =>
    intro d lr hlr
    cases t with
    | nil =>
      have hr : r = lr := by simpa using hlr
      subst hr
      simp only [List.foldl_cons, List.foldl_nil]
      exact applyRowData_contests cid r d c
    | cons s t' =>
      rw [List.getLast?_cons_cons] at hlr
      rw [List.foldl_cons]
      rw [ih _ lr hlr]
      by_cases hc : c = cid
      · simp [hc]
      · simp only [if_neg hc]
        rw [applyRowData_contests]
        simp [hc]

theorem filter_nonempty_getLast {rows : List ScoredRow} {p : ScoredRow → Bool}
    (h : ¬(rows.filter p).isEmpty) : ∃ lr, (rows.filter p).getLast? = some lr := by
  rw [List.isEmpty_iff] at h
  cases hl : (rows.filter p).getLast? with
  | none =>
    rw [List.getLast?_eq_none_iff] at hl
    exact absurd hl h
  | some lr => exact ⟨lr, rfl⟩

theorem stepAccum_comm (processed : List (ℕ × ScoredStandings)) (c₁ c₂ : ℕ) (m : CumMap) :
    mapEquiv (stepAccum processed (stepAccum processed m c₁) c₂)
      (stepAccum processed (stepAccum processed m c₂) c₁) := by
  by_cases hcc : c₁ = c₂
  · subst hcc
    exact mapEquiv_refl _
  · unfold stepAccum
    cases h1 : assocFind c₁ processed with
    | none =>
      cases h2 : assocFind c₂ processed with
      | none => exact mapEquiv_refl _
      | some o₂ => exact mapEquiv_refl _
    | some o₁ =>
      cases h2 : assocFind c₂ processed with
      | none => exact mapEquiv_refl _
      | some o₂ =>
        intro h
        by_cases he₁ : (((o₁.rows.getD []).filter (fun r => decide (r.handle = h))).isEmpty) <;>
          by_cases he₂ : (((o₂.rows.getD []).filter (fun r => decide (r.handle = h))).isEmpty)
        · have q1 : assocFind h (addContestRows c₁ (o₁.rows.getD []) m) = assocFind h m := by
            rw [assocFind_addContestRows, if_pos he₁]
          have q2 : assocFind h (addContestRows c₂ (o₂.rows.getD []) m) = assocFind h m := by
            rw [assocFind_addContestRows, if_pos he₂]
          have qA : assocFind h (addContestRows c₂ (o₂.rows.getD [])
              (addContestRows c₁ (o₁.rows.getD []) m)) = assocFind h m := by
            rw [assocFind_addContestRows, if_pos he₂, q1]
          have qB : assocFind h (addContestRows c₁ (o₁.rows.getD [])
              (addContestRows c₂ (o₂.rows.getD []) m)) = assocFind h m := by
            rw [assocFind_addContestRows, if_pos he₁, q2]
          rw [qA, qB]
          exact optDataEquiv_refl _
        · have q1 : assocFind h (addContestRows c₁ (o₁.rows.getD []) m) = assocFind h m := by
            rw [assocFind_addContestRows, if_pos he₁]
          have qA : assocFind h (addContestRows c₂ (o₂.rows.getD [])
              (addContestRows c₁ (o₁.rows.getD []) m)) =
              some (((o₂.rows.getD []).filter (fun r => decide (r.handle = h))).foldl
                (fun d r => applyRowData c₂ r d) ((assocFind h m).getD ⟨0, 0, []⟩)) := by
            rw [assocFind_addContestRows, if_neg he₂, q1]
          have qB : assocFind h (addContestRows c₁ (o₁.rows.getD [])
              (addContestRows c₂ (o₂.rows.getD []) m)) =
              some (((o₂.rows.getD []).filter (fun r => decide (r.handle = h))).foldl
                (fun d r => applyRowData c₂ r d) ((assocFind h m).getD ⟨0, 0, []⟩)) := by
            rw [assocFind_addContestRows, if_pos he₁, assocFind_addContestRows, if_neg he₂]
          rw [qA, qB]
          exact optDataEquiv_refl _
        · have q2 : assocFind h (addContestRows c₂ (o₂.rows.getD []) m) = assocFind h m := by
            rw [assocFind_addContestRows, if_pos he₂]
          have qA : assocFind h (addContestRows c₂ (o₂.rows.getD [])
              (addContestRows c₁ (o₁.rows.getD []) m)) =
              some (((o₁.rows.getD []).filter (fun r => decide (r.handle = h))).foldl
                (fun d r => applyRowData c₁ r d) ((assocFind h m).getD ⟨0, 0, []⟩)) := by
            rw [assocFind_addContestRows, if_pos he₂, assocFind_addContestRows, if_neg he₁]
          have qB : assocFind h (addContestRows c₁ (o₁.rows.getD [])
              (addContestRows c₂ (o₂.rows.getD []) m)) =
              some (((o₁.rows.getD []).filter (fun r => decide (r.handle = h))).foldl
                (fun d r => applyRowData c₁ r d) ((assocFind h m).getD ⟨0, 0, []⟩)) := by
            rw [assocFind_addContestRows, if_neg he₁, q2]
          rw [qA, qB]
          exact optDataEquiv_refl _
        · have qA : assocFind h (addContestRows c₂ (o₂.rows.getD [])
              (addContestRows c₁ (o₁.rows.getD []) m)) =
              some (((o₂.rows.getD []).filter (fun r => decide (r.handle = h))).foldl
                (fun d r => applyRowData c₂ r d)
                ((((o₁.rows.getD []).filter (fun r => decide (r.handle = h))).foldl
                  (fun d r => applyRowData c₁ r d) ((assocFind h m).getD ⟨0, 0, []⟩)))) := by
            rw [assocFind_addContestRows, if_neg he₂, assocFind_addContestRows, if_neg he₁]
            simp only [Option.getD_some]
          have qB : assocFind h (addContestRows c₁ (o₁.rows.getD [])
              (addContestRows c₂ (o₂.rows.getD []) m)) =
              some (((o₁.rows.getD []).filter (fun r => decide (r.handle = h))).foldl
                (fun d r => applyRowData c₁ r d)
                ((((o₂.rows.getD []).filter (fun r => decide (r.handle = h))).foldl
                  (fun d r => applyRowData c₂ r d) ((assocFind h m).getD ⟨0, 0, []⟩)))) := by
            rw [assocFind_addContestRows, if_neg he₁, assocFind_addContestRows, if_neg he₂]
            simp only [Option.getD_some]
          rw [qA, qB]
          obtain ⟨l₁, hl₁⟩ := filter_nonempty_getLast he₁
          obtain ⟨l₂, hl₂⟩ := filter_nonempty_getLast he₂
          refine ⟨?_, ?_, ?_⟩
          · rw [foldl_applyRowData_score, foldl_applyRowData_score,
              foldl_applyRowData_score, foldl_applyRowData_score]
            ring
          · rw [foldl_applyRowData_penalty, foldl_applyRowData_penalty,
              foldl_applyRowData_penalty, foldl_applyRowData_penalty]
            ring
          · intro c
            rw [foldl_applyRowData_contests c₂ c _ _ l₂ hl₂,
              foldl_applyRowData_contests c₁ c _ _ l₁ hl₁,
              foldl_applyRowData_contests c₁ c _ _ l₁ hl₁,
              foldl_applyRowData_contests c₂ c _ _ l₂ hl₂]
            by_cases hc2 : c = c₂ <;> by_cases hc1 : c = c₁
            · exact absurd (hc1.symm.trans hc2) hcc
            · simp [hc2, hc1, Ne.symm hcc, hcc]
            · simp [hc2, hc1, Ne.symm hcc, hcc]
            · simp [hc2, hc1, Ne.symm hcc, hcc]

theorem foldl_stepAccum_perm (processed : List (ℕ × ScoredStandings))
    {ids₁ ids₂ : List ℕ} (hperm : List.Perm ids₁ ids₂) :
    ∀ {m₁ m₂ : CumMap}, mapEquiv m₁ m₂ →
      mapEquiv (ids₁.foldl (stepAccum processed) m₁) (ids₂.foldl (stepAccum processed) m₂) := by
  induction hperm with
  | nil => intro m₁ m₂ h; exact h
  | cons x _ ih =>
    intro m₁ m₂ h
    simp only [List.foldl_cons]
    exact ih (stepAccum_equiv processed x h)
  | swap x y l =>
    intro m₁ m₂ h
    simp only [List.foldl_cons]
    apply foldl_stepAccum_equiv
    refine mapEquiv_trans ?_ (stepAccum_comm processed y x m₂)
    exact stepAccum_equiv processed x (stepAccum_equiv processed y h)
  | trans _ _ ih12 ih23 =>
    intro m₁ m₂ h
    exact mapEquiv_trans (ih12 (mapEquiv_refl m₁)) (ih23 h)

theorem fetchHonest_spec {env : Env} {i : ℕ} (h : fetchHonest env i = true) :
    getRawStandings env i = Except.ok (fetchData env i) ∧
    (fetchData env i).contest.id = i ∧ (fetchData env i).rows.isSome := by
  cases hg : getRawStandings env i with
  | error e => simp [fetchHonest, hg] at h
  | ok d =>
    have hd : d = fetchData env i := by simp [fetchData, hg]
    subst hd
    simp only [fetchHonest, hg, Bool.and_eq_true, decide_eq_true_eq] at h
    exact ⟨rfl, h.1, h.2⟩

theorem fetchAll_ok (env : Env) :
    ∀ ids : List ℕ, (∀ i ∈ ids, fetchHonest env i = true) →
      fetchAll env ids = Except.ok (ids.map (fetchData env)) := by
  intro ids
  induction ids with
  | nil => intro _; rfl
  | cons j js ih =>
    intro hok
    have hj := (fetchHonest_spec (hok j (List.mem_cons_self j js))).1
    simp [fetchAll, hj, ih (fun i hi => hok i (List.mem_cons_of_mem j hi))]

theorem sorted_fetch_eq (env : Env) {ids₁ ids₂ : List ℕ} (hperm : List.Perm ids₁ ids₂)
    (hok : ∀ i ∈ ids₁, fetchHonest env i = true) :
    sortStable sdLe (ids₁.map (fetchData env)) =
      sortStable sdLe (ids₂.map (fetchData env)) := by
  apply sorted_perm_eq (R := fun a b => sdLe a b = true)
  · exact (sortStable_perm sdLe _).trans
      ((hperm.map _).trans (sortStable_perm sdLe _).symm)
  · exact sortStable_pairwise sdLe sdLe_total sdLe_trans _
  · exact sortStable_pairwise sdLe sdLe_total sdLe_trans _
  · intro a ha b hb hab hba
    have ha' : a ∈ ids₁.map (fetchData env) := (sortStable_perm sdLe _).mem_iff.mp ha
    have hb' : b ∈ ids₁.map (fetchData env) := (sortStable_perm sdLe _).mem_iff.mp hb
    obtain ⟨i, hi, rfl⟩ := List.mem_map.mp ha'
    obtain ⟨j, hj, rfl⟩ := List.mem_map.mp hb'
    have hia := (fetchHonest_spec (hok i hi)).2.1
    have hjb := (fetchHonest_spec (hok j hj)).2.1
    simp only [sdLe, decide_eq_true_eq] at hab hba
    have hij : i = j := by
      rw [← hia, ← hjb]
      omega
    rw [hij]

theorem processAll_eq (sds : List StandingsData) (H : History) :
    processAll sds H = sds.foldl processStep ([], H) := rfl

theorem calc_rows_isSome {sd : StandingsData} (cid : ℕ) (K : History)
    (h : sd.rows.isSome) : ((calculateScoresAndStreaks sd cid K).1).rows.isSome := by
  cases hrows : sd.rows with
  | none => rw [hrows] at h; cases h
  | some rows => simp [calculateScoresAndStreaks, hrows]

theorem processAll_fold_rows_isSome :
    ∀ (S : List StandingsData) (acc : List (ℕ × ScoredStandings) × History),
      (∀ q ∈ acc.1, q.2.rows.isSome) → (∀ sd ∈ S, sd.rows.isSome) →
      ∀ q ∈ (S.foldl processStep acc).1, q.2.rows.isSome := by
  intro S
  induction S with
  | nil => intro acc hacc _ q hq; exact hacc q hq
  | cons sd rest ih =>
    intro acc hacc hS q hq
    simp only [List.foldl_cons] at hq
    refine ih _ ?_ (fun x hx => hS x (List.mem_cons_of_mem _ hx)) q hq
    intro p hp
    rcases assocSetV_mem hp with rfl | hp
    · exact calc_rows_isSome _ _ (hS sd (List.mem_cons_self sd rest))
    · exact hacc p hp

theorem accumAll_ok (processed : List (ℕ × ScoredStandings)) :
    ∀ (ids : List ℕ) (m : CumMap),
      (∀ cid ∈ ids, ∀ out, assocFind cid processed = some out → out.rows.isSome) →
      accumAll processed ids m = Except.ok (ids.foldl (stepAccum processed) m) := by
  intro ids
  induction ids with
  | nil => intro m _; rfl
  | cons c cs ih =>
    intro m hcond
    cases hf : assocFind c processed with
    | none =>
      have hstep : stepAccum processed m c = m := by simp [stepAccum, hf]
      simp only [accumAll, accumContest, hf, List.foldl_cons, hstep]
      exact ih _ (fun cid hc => hcond cid (List.mem_cons_of_mem _ hc))
    | some out =>
      have hsome := hcond c (List.mem_cons_self c cs) out hf
      cases hrows : out.rows with
      | none => rw [hrows] at hsome; cases hsome
      | some rows =>
        have hstep : stepAccum processed m c = addContestRows c rows m := by
          simp [stepAccum, hf, hrows]
        simp only [accumAll, accumContest, hf, hrows, List.foldl_cons, hstep]
        exact ih _ (fun cid hc => hcond cid (List.mem_cons_of_mem _ hc))

theorem addContestRows_keys_nodup (cid : ℕ) :
    ∀ (rows : List ScoredRow) {m : CumMap}, (m.map Prod.fst).Nodup →
      ((addContestRows cid rows m).map Prod.fst).Nodup := by
  intro rows
  induction rows with
  | nil => intro m h; exact h
  | cons r rest ih =>
    intro m h
    simp only [addContestRows, List.foldl_cons]
    exact ih (by rw [addRow_eq]; exact assocUpsert_keys_nodup _ _ h)

theorem foldl_stepAccum_keys_nodup (processed : List (ℕ × ScoredStandings)) :
    ∀ (ids : List ℕ) {m : CumMap}, (m.map Prod.fst).Nodup →
      ((ids.foldl (stepAccum processed) m).map Prod.fst).Nodup := by
  intro ids
  induction ids with
  | nil => intro m h; exact h
  | cons c cs ih =>
    intro m h
    simp only [List.foldl_cons]
    apply ih
    unfold stepAccum
    cases assocFind c processed with
    | none => exact h
    | some out => exact addContestRows_keys_nodup c _ h

theorem find?_handle_map_toCum (h : String) :
    ∀ (m : CumMap),
      (m.map toCumEntry).find? (fun e => decide (e.handle = h)) =
        (m.find? (fun p => decide (p.1 = h))).map toCumEntry := by
  intro m
  induction m with
  | nil => rfl
  | cons p ps ih =>
    by_cases hp : p.1 = h
    · simp [toCumEntry, hp, List.find?_cons_of_pos]
    · rw [List.map_cons, List.find?_cons_of_neg _ (by simp [toCumEntry, hp]),
        List.find?_cons_of_neg _ (by simp [hp]), ih]

theorem assocFind_eq_find? (h : String) :
    ∀ (m : CumMap),
      assocFind h m = (m.find? (fun p => decide (p.1 = h))).map Prod.snd := by
  intro m
  induction m with
  | nil => rfl
  | cons p ps ih =>
    by_cases hp : p.1 = h
    · simp [assocFind, hp, List.find?_cons_of_pos]
    · rw [assocFind, if_neg hp, List.find?_cons_of_neg _ (by simp [hp]), ih]

theorem find?_handle_perm {l l' : List CumEntry} (hperm : List.Perm l l')
    (hnd : (l.map CumEntry.handle).Nodup) (h : String) :
    l.find? (fun e => decide (e.handle = h)) = l'.find? (fun e => decide (e.handle = h)) := by
  cases hf : l.find? (fun e => decide (e.handle = h)) with
  | none =>
    symm
    rw [List.find?_eq_none] at hf ⊢
    intro x hx
    exact hf x (hperm.mem_iff.mpr hx)
  | some e =>
    have he_mem : e ∈ l := List.mem_of_find?_eq_some hf
    have he_pred := List.find?_some hf
    have hsome : (l'.find? (fun e => decide (e.handle = h))).isSome := by
      rw [List.find?_isSome]
      exact ⟨e, hperm.mem_iff.mp he_mem, he_pred⟩
    obtain ⟨e', hf'⟩ := Option.isSome_iff_exists.mp hsome
    have he'_mem : e' ∈ l := hperm.mem_iff.mpr (List.mem_of_find?_eq_some hf')
    have he'_pred := List.find?_some hf'
    simp only [decide_eq_true_eq] at he_pred he'_pred
    have hee : e = e' :=
      List.inj_on_of_nodup_map hnd he_mem he'_mem (by rw [he_pred, he'_pred])
    rw [hf', ← hee]

theorem map_handle_toCum (m : CumMap) :
    (m.map toCumEntry).map CumEntry.handle = m.map Prod.fst := by
  rw [List.map_map]
  rfl

/-- C2.  The `/api/multiconteststandings` endpoint is invariant under
permutation of the requested contest ids: when every requested id fetches
successfully with a well-formed payload (contest id matching the request,
rows present), both orders answer 200, and the two leaderboards agree at
every handle on total score, total penalty, and the per-contest
breakdown mapping. -/
theorem c2_theorem (env : Env) (ids₁ ids₂ : List ℕ)
    (hperm : List.Perm ids₁ ids₂)
    (hok : ∀ i ∈ ids₁, fetchHonest env i = true) :
    (multiContestStandings env (some ids₁)).1 = 200 ∧
    (multiContestStandings env (some ids₂)).1 = 200 ∧
    ∀ h : String,
      optCumEquiv (respFind (multiContestStandings env (some ids₁)) h)
        (respFind (multiContestStandings env (some ids₂)) h) := by
  have hok₂ : ∀ i ∈ ids₂, fetchHonest env i = true :=
    fun i hi => hok i (hperm.mem_iff.mpr hi)
  have hfa₁ := fetchAll_ok env ids₁ hok
  have hfa₂ := fetchAll_ok env ids₂ hok₂
  have hsort : sortStable sdLe (ids₂.map (fetchData env)) =
      sortStable sdLe (ids₁.map (fetchData env)) :=
    (sorted_fetch_eq env hperm hok).symm
  have hSome : ∀ sd ∈ sortStable sdLe (ids₁.map (fetchData env)), sd.rows.isSome := by
    intro sd hsd
    have hmem : sd ∈ ids₁.map (fetchData env) :=
      (sortStable_perm sdLe _).mem_iff.mp hsd
    obtain ⟨i, hi, rfl⟩ := List.mem_map.mp hmem
    exact (fetchHonest_spec (hok i hi)).2.2
  have hPvals : ∀ q ∈ (processAll (sortStable sdLe (ids₁.map (fetchData env))) []).1,
      q.2.rows.isSome := by
    rw [processAll_eq]
    exact processAll_fold_rows_isSome _ ([], [])
      (fun q hq => absurd hq (List.not_mem_nil q)) hSome
  have hcond : ∀ (cid : ℕ) (out : ScoredStandings),
      assocFind cid (processAll (sortStable sdLe (ids₁.map (fetchData env))) []).1 =
        some out → out.rows.isSome :=
    fun cid out hfind => hPvals (cid, out) (assocFind_some_mem hfind)
  have hacc₁ := accumAll_ok (processAll (sortStable sdLe (ids₁.map (fetchData env))) []).1
    ids₁ [] (fun cid _ => hcond cid)
  have hacc₂ := accumAll_ok (processAll (sortStable sdLe (ids₁.map (fetchData env))) []).1
    ids₂ [] (fun cid _ => hcond cid)
  have hm₁ : multiContestStandings env (some ids₁) =
      (200, ApiResponse.ok
        (sortStable lbLe ((ids₁.foldl
          (stepAccum (processAll (sortStable sdLe (ids₁.map (fetchData env))) []).1)
          []).map toCumEntry))
        (ids₁.map (fun i =>
          (i, contestName (sortStable sdLe (ids₁.map (fetchData env))) i)))) := by
    simp only [multiContestStandings, hfa₁, hacc₁]
  have hm₂ : multiContestStandings env (some ids₂) =
      (200, ApiResponse.ok
        (sortStable lbLe ((ids₂.foldl
          (stepAccum (processAll (sortStable sdLe (ids₁.map (fetchData env))) []).1)
          []).map toCumEntry))
        (ids₂.map (fun i =>
          (i, contestName (sortStable sdLe (ids₁.map (fetchData env))) i)))) := by
    simp only [multiContestStandings, hfa₂, hsort, hacc₂]
  refine ⟨by rw [hm₁], by rw [hm₂], ?_⟩
  intro h
  have hmequiv := foldl_stepAccum_perm
    (processAll (sortStable sdLe (ids₁.map (fetchData env))) []).1 hperm
    (mapEquiv_refl ([] : CumMap))
  have hnd₁ : ((ids₁.foldl
      (stepAccum (processAll (sortStable sdLe (ids₁.map (fetchData env))) []).1)
      []).map Prod.fst).Nodup :=
    foldl_stepAccum_keys_nodup _ ids₁ (by simp)
  have hnd₂ : ((ids₂.foldl
      (stepAccum (processAll (sortStable sdLe (ids₁.map (fetchData env))) []).1)
      []).map Prod.fst).Nodup :=
    foldl_stepAccum_keys_nodup _ ids₂ (by simp)
  rw [hm₁, hm₂]
  simp only [respFind]
  rw [find?_handle_perm (sortStable_perm lbLe _)
      (((sortStable_perm lbLe _).map CumEntry.handle).nodup_iff.mpr
        (by rw [map_handle_toCum]; exact hnd₁)) h,
    find?_handle_perm (sortStable_perm lbLe _)
      (((sortStable_perm lbLe _).map CumEntry.handle).nodup_iff.mpr
        (by rw [map_handle_toCum]; exact hnd₂)) h,
    find?_handle_map_toCum, find?_handle_map_toCum]
  have he := hmequiv h
  rw [assocFind_eq_find?, assocFind_eq_find?] at he
  cases hf₁ : (ids₁.foldl
      (stepAccum (processAll (sortStable sdLe (ids₁.map (fetchData env))) []).1)
      []).find? (fun p => decide (p.1 = h)) with
  | none =>
    cases hf₂ : (ids₂.foldl
        (stepAccum (processAll (sortStable sdLe (ids₁.map (fetchData env))) []).1)
        []).find? (fun p => decide (p.1 = h)) with
    | none => trivial
    | some q₂ =>
      rw [hf₁, hf₂] at he
      exact False.elim he
  | some q₁ =>
    cases hf₂ : (ids₂.foldl
        (stepAccum (processAll (sortStable sdLe (ids₁.map (fetchData env))) []).1)
        []).find? (fun p => decide (p.1 = h)) with
    | none =>
      rw [hf₁, hf₂] at he
      exact False.elim he
    | some q₂ =>
      rw [hf₁, hf₂] at he
      have hde : dataEquiv q₁.2 q₂.2 := he
      have h₁ := List.find?_some hf₁
      have h₂ := List.find?_some hf₂
      simp only [decide_eq_true_eq] at h₁ h₂
      exact ⟨h₁.trans h₂.symm, hde.1, hde.2.1, hde.2.2⟩

/-- C2 witness: requesting the two hardcoded contests as `631207,631208`
and as `631208,631207` gives 200 both times and leaderboards agreeing at
every handle. -/
theorem c2_witness :
    List.Perm [631207, 631208] [631208, 631207] ∧
    (∀ i ∈ [631207, 631208], fetchHonest
      ⟨[], [], [], [], [], [], [], fun _ => ⟨"", ⟨⟨0, ""⟩, none, none⟩, none⟩⟩ i = true) ∧
    ((multiContestStandings
        ⟨[], [], [], [], [], [], [], fun _ => ⟨"", ⟨⟨0, ""⟩, none, none⟩, none⟩⟩
        (some [631207, 631208])).1 = 200 ∧
     (multiContestStandings
        ⟨[], [], [], [], [], [], [], fun _ => ⟨"", ⟨⟨0, ""⟩, none, none⟩, none⟩⟩
        (some [631208, 631207])).1 = 200 ∧
     ∀ h : String,
       optCumEquiv
         (respFind (multiContestStandings
           ⟨[], [], [], [], [], [], [], fun _ => ⟨"", ⟨⟨0, ""⟩, none, none⟩, none⟩⟩
           (some [631207, 631208])) h)
         (respFind (multiContestStandings
           ⟨[], [], [], [], [], [], [], fun _ => ⟨"", ⟨⟨0, ""⟩, none, none⟩, none⟩⟩
           (some [631208, 631207])) h)) :=
  ⟨by decide, by decide,
   c2_theorem ⟨[], [], [], [], [], [], [], fun _ => ⟨"", ⟨⟨0, ""⟩, none, none⟩, none⟩⟩
     [631207, 631208] [631208, 631207] (by decide) (by decide)⟩

end Codemon